import Mathlib

/-
Verification development for the OC Snapshot reconciler and the
hierarchical document model of the OpCore-Simplify config editor page
(Scripts/gui/pages/config_editor_page.py).

The snapshot functions `_snapshot_acpi`, `_snapshot_kexts`,
`_snapshot_drivers`, `_snapshot_tools` and the composite
`_perform_snapshot` are embedded as pure Lean functions over
  * `PValue`   - an in-memory plist tree value (ordered dict entries),
  * `FSTree`   - a directory listing in scandir order, given as a
                 first-order inductive (one constructor per entry),
so that every function is structurally recursive and computable.
Exceptions raised by the Python code on malformed trees (non-dict
section containers, non-list section lists, non-string path fields)
are modelled by `Option`: `none` means the section raised and made no
mutation.  Python's stable `sorted(key=str.lower)` is modelled by
`List.insertionSort` with a case-insensitive order (both are stable
sorts with the same comparator, hence the same function).  String
lowering / comparison are given data-level definitions equivalent to
Python's semantics on the relevant (ASCII) inputs.
-/

namespace OCSnap

/-! ## String primitives (data-level, matching Python `str` semantics) -/

/-- Python `str.lower` (ASCII range, as used for path comparison). -/
def strLower (s : String) : String := ⟨s.data.map Char.toLower⟩

/-- Lexicographic comparison of character lists by code point,
Python's `<=` on strings. -/
def charsLe : List Char → List Char → Bool
  | [], _ => true
  | _ :: _, [] => false
  | a :: as, b :: bs => if a = b then charsLe as bs else decide (a.toNat < b.toNat)

/-- Python `s <= t` on strings. -/
def strLeB (a b : String) : Bool := charsLe a.data b.data

def charsIsPre : List Char → List Char → Bool
  | [], _ => true
  | _ :: _, [] => false
  | a :: as, b :: bs => a = b && charsIsPre as bs

/-- Python `s.endswith(t)`. -/
def strEnds (s t : String) : Bool := charsIsPre t.data.reverse s.data.reverse

/-- Python `s.startswith(t)`. -/
def strStarts (s t : String) : Bool := charsIsPre t.data s.data

/-- Python `os.path.basename` on forward-slash paths. -/
def strBasename (p : String) : String :=
  ⟨(p.data.reverse.takeWhile (fun c => !(c = '/' : Bool))).reverse⟩

/-- The case-insensitive order used by `sorted(key=lambda x: x.lower())`. -/
def ciLE (a b : String) : Prop := strLeB (strLower a) (strLower b) = true

instance : DecidableRel ciLE := fun a b => by unfold ciLE; infer_instance

/-- Python's `sorted(paths, key=lambda x: x.lower())`: a stable sort by the
case-insensitive order.  `List.insertionSort` is a stable sort, hence equal
as a function to Python's (also stable) sort with the same comparator. -/
def sortCI (l : List String) : List String := l.insertionSort ciLE

/-! ## Plist tree values -/

/-- A plist tree value as held by the editor (the runtime values that
`get_tree_data` produces: booleans, numbers, strings, data blobs, arrays
and ordered dictionaries). -/
inductive PValue where
  | bool (b : Bool)
  | int (n : Int)
  | str (s : String)
  | bytes (bs : List Nat)
  | arr (items : List PValue)
  | dict (entries : List (String × PValue))

/-- An ordered dictionary: key/value pairs in insertion order. -/
abbrev Dict := List (String × PValue)

/-- Python `d[k]` lookup (first binding of the key). -/
def dictGet : Dict → String → Option PValue
  | [], _ => none
  | (k, v) :: rest, key => if k = key then some v else dictGet rest key

/-- Python `d[k] = v` on an (ordered) dict: update in place if the key is
present, else append at the end. -/
def dictSet : Dict → String → PValue → Dict
  | [], key, v => [(key, v)]
  | (k, w) :: rest, key, v =>
      if k = key then (key, v) :: rest else (k, w) :: dictSet rest key v

/-! ## The reference directory -/

/-- A directory listing in `os.scandir` order, as a first-order inductive:
`fileC name size plist rest` is a file entry followed by the remaining
entries; for files named `Info.plist` the `plist` field holds the result of
`plistlib.load` (`none` = unparsable, `some d` = a parsed dictionary).
Entry names within one listing are distinct (a real file system). -/
inductive FSTree where
  | nil
  | fileC (name : String) (size : Nat) (pl : Option Dict) (rest : FSTree)
  | dirC (name : String) (contents : FSTree) (rest : FSTree)

/-- File filter for the ACPI scan: not hidden, extension `.aml` or `.bin`
(case-insensitive). -/
def acpiOk (n : String) : Bool :=
  !(strStarts n ".") && (strEnds (strLower n) ".aml" || strEnds (strLower n) ".bin")

/-- File filter for the Drivers and Tools scans: not hidden, extension
`.efi` (case-insensitive). -/
def efiOk (n : String) : Bool := !(strStarts n ".") && strEnds (strLower n) ".efi"

/-- The matching files directly inside one listing, in order. -/
def filesOf (ok : String → Bool) : FSTree → List String
  | .nil => []
  | .fileC n _ _ rest => (if ok n then [n] else []) ++ filesOf ok rest
  | .dirC _ _ rest => filesOf ok rest

/-- The matching files in the subdirectories of one listing:
`os.walk` recurses into every subdirectory in scandir order, after the
files of the directory itself. -/
def walkSub (ok : String → Bool) : FSTree → List String
  | .nil => []
  | .fileC _ _ _ rest => walkSub ok rest
  | .dirC n ch rest =>
      ((filesOf ok ch ++ walkSub ok ch).map (fun p => n ++ "/" ++ p)) ++ walkSub ok rest

/-- Relative paths (forward slashes) of all matching files under a
directory, in `os.walk` order (top-down, files of a directory before its
subdirectories' files). -/
def walkFS (ok : String → Bool) (t : FSTree) : List String := filesOf ok t ++ walkSub ok t

/-! ## Kext discovery -/

/-- The first file named `Info.plist` directly inside one listing. -/
def infoHere : FSTree → Option (Option Dict)
  | .nil => none
  | .fileC n _ pl rest => if n = "Info.plist" then some pl else infoHere rest
  | .dirC _ _ rest => infoHere rest

/-- Search the subdirectories of a listing for the first `Info.plist`
anywhere beneath, depth-first in scandir order (the inner `os.walk` of
`_snapshot_kexts`), returning its path relative to the listing and its
parse result. -/
def findInfoSub : FSTree → Option (String × Option Dict)
  | .nil => none
  | .fileC _ _ _ rest => findInfoSub rest
  | .dirC n ch rest =>
      match (match infoHere ch with
             | some pl => some ("Info.plist", pl)
             | none => findInfoSub ch) with
      | some (p, pl) => some (n ++ "/" ++ p, pl)
      | none => findInfoSub rest

/-- First `Info.plist` in a kext directory's subtree (walk order). -/
def findInfo (t : FSTree) : Option (String × Option Dict) :=
  match infoHere t with
  | some pl => some ("Info.plist", pl)
  | none => findInfoSub t

/-- First entry of a listing with a given name, if it is a subdirectory. -/
def findDir : FSTree → String → Option FSTree
  | .nil, _ => none
  | .fileC n _ _ rest, nm => if n = nm then none else findDir rest nm
  | .dirC n ch rest, nm => if n = nm then some ch else findDir rest nm

/-- Does `nm` exist in the listing with positive size
(`os.path.exists` and `os.path.getsize(...) > 0`)? -/
def existsPositive : FSTree → String → Bool
  | .nil, _ => false
  | .fileC n sz _ rest, nm => if n = nm then decide (0 < sz) else existsPositive rest nm
  | .dirC n _ rest, nm => if n = nm then true else existsPositive rest nm

/-- Is `Contents/MacOS/en` an existing non-empty file under the kext
directory? -/
def macosHas (ch : FSTree) (en : String) : Bool :=
  match findDir ch "Contents" with
  | none => false
  | some c1 =>
    match findDir c1 "MacOS" with
    | none => false
    | some c2 => existsPositive c2 en

/-- The data recorded for one discovered kext. -/
structure KextInfo where
  bundlePath : String
  dirName : String
  execPath : String
  plistPath : String

/-- Process one `.kext` candidate directory named `n` with contents `ch`
(the body of the candidate loop in `_snapshot_kexts`): `none` when the
kext is silently skipped (no `Info.plist` beneath it, unparsable
`Info.plist`, missing `CFBundleIdentifier`, or an exception while
building the entry). -/
def processKext (n : String) (ch : FSTree) : Option KextInfo :=
  match findInfo ch with
  | none => none
  | some (_, none) => none
  | some (plRel, some info) =>
    if (dictGet info "CFBundleIdentifier").isNone then none
    else
      match dictGet info "CFBundleExecutable" with
      | none => some ⟨n, n, "", plRel⟩
      | some (.str en) =>
          if macosHas ch en then some ⟨n, n, "Contents/MacOS/" ++ en, plRel⟩
          else some ⟨n, n, "", plRel⟩
      | some _ => none

/-- The subdirectories of one listing, in scandir order. -/
def dirsOf : FSTree → List (String × FSTree)
  | .nil => []
  | .fileC _ _ _ rest => dirsOf rest
  | .dirC n ch rest => (n, ch) :: dirsOf rest

/-- The case-insensitive order on named subdirectories
(`sorted(dirs, key=lambda x: x.lower())`). -/
def ciLEName (a b : String × FSTree) : Prop := ciLE a.1 b.1

instance : DecidableRel ciLEName := fun a b => by unfold ciLEName; infer_instance

/-- Is a directory name a kext candidate (not hidden, `.kext` suffix)? -/
def kextCand (n : String) : Bool := !(strStarts n ".") && strEnds (strLower n) ".kext"

/-- The kexts discovered directly at one listing: candidates taken in
case-insensitively sorted name order. -/
def kextLevel (t : FSTree) : List KextInfo :=
  ((dirsOf t).insertionSort ciLEName).filterMap
    (fun c => if kextCand c.1 then processKext c.1 c.2 else none)

/-- The kexts discovered in the subdirectories of a listing: `os.walk`
recurses into every subdirectory (including kext bundles, finding plugin
kexts) in scandir order. -/
def kextSub : FSTree → List KextInfo
  | .nil => []
  | .fileC _ _ _ rest => kextSub rest
  | .dirC n ch rest =>
      ((kextLevel ch ++ kextSub ch).map
        (fun k => { k with bundlePath := n ++ "/" ++ k.bundlePath })) ++ kextSub rest

/-- All kexts discovered under the `Kexts` reference directory, in the scan
order of `_snapshot_kexts` (per-directory sorted candidates, a directory's
candidates before those nested beneath it). -/
def kextWalk (t : FSTree) : List KextInfo := kextLevel t ++ kextSub t

/-! ## Section reconciliation -/

/-- Python `x.get(field, "").lower()` on a dict entry: `none` models the
`AttributeError` raised when the field holds a non-string. -/
def getFieldLower (d : Dict) (k : String) : Option String :=
  match dictGet d k with
  | none => some ""
  | some (.str s) => some (strLower s)
  | some _ => none

/-- Total variant of `getFieldLower` (used after validation has ruled out
non-string fields). -/
def fieldLowerD (d : Dict) (k : String) : String :=
  match dictGet d k with
  | some (.str s) => strLower s
  | _ => ""

/-- The comprehension `[x.get(field, "").lower() for x in l if
isinstance(x, dict)]`: non-dict elements are skipped, a non-string field
raises (`none`). -/
def dictFieldPaths (k : String) : List PValue → Option (List String)
  | [] => some []
  | .dict d :: rest => do
      let s ← getFieldLower d k
      let tl ← dictFieldPaths k rest
      pure (s :: tl)
  | _ :: rest => dictFieldPaths k rest

/-- Ensure-and-read of a section container (`tree_data[key]`): absent means
a fresh empty dict is created; a present non-dict value raises. -/
def sectionContainer : Option PValue → Option Dict
  | none => some []
  | some (.dict a) => some a
  | some _ => none

/-- Read of the section list (`[] if clean else container[key]`): absent
means a fresh empty list; under `clean` the existing value is never read;
a present non-list value raises when it would be iterated or appended to. -/
def sectionList (container : Dict) (key : String) (clean : Bool) : Option (List PValue) :=
  if clean then some [] else
  match dictGet container key with
  | none => some []
  | some (.arr l) => some l
  | some _ => none

/-- The pruning predicate of `_snapshot_acpi` / `_snapshot_tools`:
keep dict entries whose lowercased `Path` is among the discovered
(lowercased) paths; every non-dict entry is dropped. -/
def simpleKeep (lowers : List String) (e : PValue) : Bool :=
  match e with
  | .dict d => lowers.contains (fieldLowerD d "Path")
  | _ => false

/-- The fresh ACPI entry for a newly discovered path. -/
def acpiEntry (p : String) : PValue :=
  .dict [("Comment", .str (strBasename p)), ("Enabled", .bool true), ("Path", .str p)]

/-- The fresh Tools entry for a newly discovered path. -/
def toolEntry (p : String) : PValue :=
  .dict [("Arguments", .str ""), ("Auxiliary", .bool true),
         ("Comment", .str (strBasename p)), ("Enabled", .bool true),
         ("Flavour", .str "Auto"), ("FullNvramAccess", .bool false),
         ("Path", .str p), ("RealPath", .bool false), ("TextMode", .bool false)]

/-- Common body of `_snapshot_acpi` and `_snapshot_tools`, acting on the
section container value (`tree_data["ACPI"]` resp. `tree_data["Misc"]`):
ensure the list exists, append a default entry for every discovered path
not already present case-insensitively, then drop every entry whose path
is not among the discovered ones.  `scan` is the list of discovered
relative paths in walk order. -/
def simpleSection (mk : String → PValue) (listKey : String)
    (cur : Option PValue) (scan : List String) (clean : Bool) : Option PValue := do
  let container ← sectionContainer cur
  let add ← sectionList container listKey clean
  let eps ← dictFieldPaths "Path" add
  let news := ((sortCI scan).filter (fun p => !(eps.contains (strLower p)))).map mk
  let lowers := scan.map strLower
  pure (.dict (dictSet container listKey (.arr ((add ++ news).filter (simpleKeep lowers)))))

/-- The fresh (dict-format) Drivers entry for a newly discovered path. -/
def driverEntry (p : String) : PValue :=
  .dict [("Arguments", .str ""), ("Comment", .str (strBasename p)),
         ("Enabled", .bool true), ("LoadEarly", .bool false), ("Path", .str p)]

/-- Python `x.get("Path", "").lower() if isinstance(x, dict) else
x.lower()` on a Drivers entry; `none` models the exception on a non-dict
non-string entry or a non-string `Path`. -/
def driverPathLower : PValue → Option String
  | .dict d => getFieldLower d "Path"
  | .str s => some (strLower s)
  | _ => none

/-- The `existing_paths` comprehension of `_snapshot_drivers`. -/
def driversPaths : List PValue → Option (List String)
  | [] => some []
  | e :: rest => do
      let s ← driversPaths rest
      let p ← driverPathLower e
      pure (p :: s)

/-- Is the first element of the list a dict (Python's
`drivers and isinstance(drivers[0], dict)`)? -/
def headIsDict : List PValue → Bool
  | .dict _ :: _ => true
  | _ => false

/-- The entry appended for a newly discovered driver: dict format when the
format flag holds, else a bare string. -/
def driverNew (b : Bool) (p : String) : PValue :=
  if b then driverEntry p else .str p

/-- The append loop of `_snapshot_drivers`: each newly discovered driver
is appended in dict format exactly when the current first element of the
(growing) list is a dict, else as a bare string. -/
def driversAppend (eps : List String) (drivers : List PValue) : List String → List PValue
  | [] => drivers
  | p :: rest =>
      if eps.contains (strLower p) then driversAppend eps drivers rest
      else driversAppend eps (drivers ++ [driverNew (headIsDict drivers) p]) rest

/-- The pruning predicate of `_snapshot_drivers`: keep entries (dict or
bare string) whose lowercased path is among the discovered ones. -/
def driverKeep (lowers : List String) (e : PValue) : Bool :=
  match e with
  | .dict d => lowers.contains (fieldLowerD d "Path")
  | .str s => lowers.contains (strLower s)
  | _ => false

/-- Body of `_snapshot_drivers`, acting on the `tree_data["UEFI"]` value. -/
def driversSection (cur : Option PValue) (scan : List String) (clean : Bool) :
    Option PValue := do
  let container ← sectionContainer cur
  let ex ← sectionList container "Drivers" clean
  let eps ← driversPaths ex
  let combined := driversAppend eps ex (sortCI scan)
  let lowers := scan.map strLower
  pure (.dict (dictSet container "Drivers" (.arr (combined.filter (driverKeep lowers)))))

/-- The dict built for a discovered kext in `_snapshot_kexts`. -/
def kextToEntry (k : KextInfo) : PValue :=
  .dict [("Arch", .str "Any"), ("BundlePath", .str k.bundlePath),
         ("Comment", .str k.dirName), ("Enabled", .bool true),
         ("ExecutablePath", .str k.execPath), ("MaxKernel", .str ""),
         ("MinKernel", .str ""), ("PlistPath", .str k.plistPath)]

/-- Refresh a retained kext dict from the matching discovered kext:
overwrite `ExecutablePath` then `PlistPath` with the freshly scanned
values (the two assignments of the retention loop). -/
def refreshKext (ks : List KextInfo) (bl : String) (d : Dict) : Dict :=
  match ks.find? (fun k => strLower k.bundlePath = bl) with
  | some k => dictSet (dictSet d "ExecutablePath" (.str k.execPath)) "PlistPath" (.str k.plistPath)
  | none => d

/-- The retention loop of `_snapshot_kexts`: keep dict entries whose
lowercased `BundlePath` matches a discovered kext, refreshing their
`ExecutablePath` / `PlistPath`; drop non-dict entries and entries whose
bundle no longer exists. -/
def kextKeepRefresh (ks : List KextInfo) (e : PValue) : Option PValue :=
  match e with
  | .dict d =>
      if (ks.map (fun k => strLower k.bundlePath)).contains (fieldLowerD d "BundlePath") then
        some (.dict (refreshKext ks (fieldLowerD d "BundlePath") d))
      else none
  | _ => none

/-- Body of `_snapshot_kexts`, acting on the `tree_data["Kernel"]` value;
`ks` is the discovery result of the kext scan. -/
def kextsSection (cur : Option PValue) (ks : List KextInfo) (clean : Bool) :
    Option PValue := do
  let container ← sectionContainer cur
  let add ← sectionList container "Add" clean
  let ebs ← dictFieldPaths "BundlePath" add
  let news := (ks.filter (fun k => !(ebs.contains (strLower k.bundlePath)))).map kextToEntry
  pure (.dict (dictSet container "Add" (.arr ((add ++ news).filterMap (kextKeepRefresh ks)))))

/-! ## The four snapshot operations and the composite -/

/-- `_snapshot_acpi(tree_data, oc_acpi, clean)`: reconcile `ACPI -> Add`
against the `.aml` / `.bin` files under the ACPI reference directory. -/
def snapshotAcpi (tree : Dict) (fs : FSTree) (clean : Bool) : Option Dict :=
  (simpleSection acpiEntry "Add" (dictGet tree "ACPI") (walkFS acpiOk fs) clean).map
    (fun v => dictSet tree "ACPI" v)

/-- `_snapshot_kexts(tree_data, oc_kexts, clean)`: reconcile
`Kernel -> Add` against the kexts discovered under the Kexts directory. -/
def snapshotKexts (tree : Dict) (fs : FSTree) (clean : Bool) : Option Dict :=
  (kextsSection (dictGet tree "Kernel") (kextWalk fs) clean).map
    (fun v => dictSet tree "Kernel" v)

/-- `_snapshot_drivers(tree_data, oc_drivers, clean)`: reconcile
`UEFI -> Drivers` against the `.efi` files under the Drivers directory. -/
def snapshotDrivers (tree : Dict) (fs : FSTree) (clean : Bool) : Option Dict :=
  (driversSection (dictGet tree "UEFI") (walkFS efiOk fs) clean).map
    (fun v => dictSet tree "UEFI" v)

/-- `_snapshot_tools(tree_data, oc_tools, clean)`: the Tools directory is
optional; when absent the function returns without touching the tree,
otherwise reconcile `Misc -> Tools` against its `.efi` files. -/
def snapshotTools (tree : Dict) (fs : Option FSTree) (clean : Bool) : Option Dict :=
  match fs with
  | none => some tree
  | some t =>
      (simpleSection toolEntry "Tools" (dictGet tree "Misc") (walkFS efiOk t) clean).map
        (fun v => dictSet tree "Misc" v)

/-- The four reference subdirectories handed to `_perform_snapshot`
(`Tools` may be missing). -/
structure OCDirs where
  acpi : FSTree
  kexts : FSTree
  drivers : FSTree
  tools : Option FSTree

/-- The reconciliation part of `_perform_snapshot`: the four sections run
in the fixed order ACPI, Kexts, Drivers, Tools, each mutating the tree in
place; an exception in one section aborts the call, leaving the mutations
of the already completed sections in the tree.  The `Bool` reports
success. -/
def performSnapshot (tree : Dict) (dirs : OCDirs) (clean : Bool) : Dict × Bool :=
  match snapshotAcpi tree dirs.acpi clean with
  | none => (tree, false)
  | some t1 =>
    match snapshotKexts t1 dirs.kexts clean with
    | none => (t1, false)
    | some t2 =>
      match snapshotDrivers t2 dirs.drivers clean with
      | none => (t2, false)
      | some t3 =>
        match snapshotTools t3 dirs.tools clean with
        | none => (t3, false)
        | some t4 => (t4, true)

/-! ## Derived notions used in the statements -/

/-- Does an element survive the `existing_paths` comprehension without an
exception: non-dicts are skipped, dict entries need a string (or absent)
field. -/
def entryFieldOk (k : String) (e : PValue) : Bool :=
  match e with
  | .dict d => (getFieldLower d k).isSome
  | _ => true

/-- The contribution of an element to the `existing_paths` comprehension:
`none` for skipped non-dicts. -/
def entryFieldLower (k : String) (e : PValue) : Option String :=
  match e with
  | .dict d => some (fieldLowerD d k)
  | _ => none

/-- Does the drivers `existing_paths` comprehension accept an element
without an exception? -/
def driverOk (e : PValue) : Bool := (driverPathLower e).isSome

/-- The lowercased path fields of the dict entries of a list (the value
of the `existing_paths` comprehension when no exception occurs). -/
def epsOf (k : String) (l : List PValue) : List String :=
  l.filterMap (entryFieldLower k)

/-- The entries appended for the discovered paths that are new
case-insensitively: sorted, filtered against the existing paths, built
with the section's entry constructor. -/
def simpleNews (mk : String → PValue) (eps : List String) (scan : List String) :
    List PValue :=
  ((sortCI scan).filter (fun p => !(eps.contains (strLower p)))).map mk

/-- No file named `Info.plist` anywhere in a subtree. -/
def noPlist : FSTree → Bool
  | .nil => true
  | .fileC n _ _ rest => !(n = "Info.plist" : Bool) && noPlist rest
  | .dirC _ ch rest => noPlist ch && noPlist rest

/-! ## The hierarchical document model (load/save) -/

/- Modelled from the spec: the serialized document format (`plistlib` in
the source is outside `src/`; §4.1 requires `save` to round-trip every
supported leaf type losslessly, preserving mapping key order and sequence
order with no implicit alphabetical resorting).  `Doc` is the document
tree: ordered mappings with unique string keys, ordered sequences, and
boolean / integer / string / byte-sequence leaves, given as a mutual
family so all recursion is structural. -/
mutual
inductive Doc where
  | bool (b : Bool)
  | int (n : Int)
  | str (s : String)
  | bytes (bs : List Nat)
  | arr (items : DocList)
  | dict (entries : DocDict)
inductive DocList where
  | nil
  | cons (v : Doc) (rest : DocList)
inductive DocDict where
  | nil
  | cons (key : String) (v : Doc) (rest : DocDict)
end

def DocList.length : DocList → Nat
  | .nil => 0
  | .cons _ rest => rest.length + 1

def DocDict.length : DocDict → Nat
  | .nil => 0
  | .cons _ _ rest => rest.length + 1

/-- Modelled from the spec: zigzag code of a signed integer. -/
def natOfInt (n : Int) : Nat := if 0 ≤ n then 2 * n.toNat else 2 * (-n).toNat - 1

def intOfNat (m : Nat) : Int :=
  if m % 2 = 0 then Int.ofNat (m / 2) else -(Int.ofNat ((m + 1) / 2))

/- Modelled from the spec: `save` serializes a document to a word
sequence; a tag word, then a length-prefixed payload, in document order
(mapping keys and values in insertion order, never sorted). -/
mutual
def encP : Doc → List Nat
  | .bool b => [0, if b then 1 else 0]
  | .int n => [1, natOfInt n]
  | .str s => 2 :: s.length :: s.data.map Char.toNat
  | .bytes bs => 3 :: bs.length :: bs
  | .arr items => 4 :: items.length :: encL items
  | .dict entries => 5 :: entries.length :: encD entries
def encL : DocList → List Nat
  | .nil => []
  | .cons v rest => encP v ++ encL rest
def encD : DocDict → List Nat
  | .nil => []
  | .cons k v rest => (k.length :: k.data.map Char.toNat) ++ encP v ++ encD rest
end

/-- Decode a length-prefixed string. -/
def decStr : List Nat → Option (String × List Nat)
  | [] => none
  | len :: rest =>
      if len ≤ rest.length then some (⟨(rest.take len).map Char.ofNat⟩, rest.drop len)
      else none

/- Modelled from the spec: the parser of the serialized format.  `fuel`
bounds the recursion depth (every recursive call decreases it); `load`
supplies a sufficient bound computed from the input length. -/
mutual
def decP : Nat → List Nat → Option (Doc × List Nat)
  | 0, _ => none
  | _ + 1, [] => none
  | fuel + 1, tag :: rest =>
    if tag = 0 then
      match rest with
      | b :: rest2 => some (.bool (b = 1), rest2)
      | [] => none
    else if tag = 1 then
      match rest with
      | m :: rest2 => some (.int (intOfNat m), rest2)
      | [] => none
    else if tag = 2 then (decStr rest).map (fun sr => (.str sr.1, sr.2))
    else if tag = 3 then
      match rest with
      | len :: rest2 =>
          if len ≤ rest2.length then some (.bytes (rest2.take len), rest2.drop len)
          else none
      | [] => none
    else if tag = 4 then
      match rest with
      | len :: rest2 => (decL fuel len rest2).map (fun lr => (.arr lr.1, lr.2))
      | [] => none
    else if tag = 5 then
      match rest with
      | len :: rest2 => (decD fuel len rest2).map (fun dr => (.dict dr.1, dr.2))
      | [] => none
    else none
def decL : Nat → Nat → List Nat → Option (DocList × List Nat)
  | _, 0, bs => some (.nil, bs)
  | 0, _ + 1, _ => none
  | fuel + 1, n + 1, bs => do
      let vr ← decP fuel bs
      let lr ← decL fuel n vr.2
      pure (.cons vr.1 lr.1, lr.2)
def decD : Nat → Nat → List Nat → Option (DocDict × List Nat)
  | _, 0, bs => some (.nil, bs)
  | 0, _ + 1, _ => none
  | fuel + 1, n + 1, bs => do
      let kr ← decStr bs
      let vr ← decP fuel kr.2
      let dr ← decD fuel n vr.2
      pure (.cons kr.1 vr.1 dr.1, dr.2)
end

/- The recursion budget needed to decode an encoded document: one unit
per constructor level and per sequence element. -/
mutual
def sizeP : Doc → Nat
  | .arr items => sizeL items + 1
  | .dict es => sizeD es + 1
  | _ => 1
def sizeL : DocList → Nat
  | .nil => 0
  | .cons v rest => max (sizeP v) (sizeL rest) + 1
def sizeD : DocDict → Nat
  | .nil => 0
  | .cons _ v rest => max (sizeP v) (sizeD rest) + 1
end

/-- Modelled from the spec: `save(Document) -> bytes`. -/
def save (d : Doc) : List Nat := encP d

/-- Modelled from the spec: `load(bytes) -> Document`, failing
(`ParseError`, here `none`) unless the input is exactly one serialized
document. -/
def load (bs : List Nat) : Option Doc :=
  match decP (bs.length + 1) bs with
  | some (v, []) => some v
  | _ => none

/-! ## Concrete fixtures (used by witnesses and counterexamples) -/

/-- A well-formed kext `Info.plist` parse result. -/
def fxInfoGood : Dict :=
  [("CFBundleIdentifier", .str "as.vit9696.Lilu"), ("CFBundleExecutable", .str "Lilu")]

/-- A Kexts reference directory with one valid kext. -/
def fxKextsDir : FSTree :=
  .dirC "Lilu.kext" (.dirC "Contents" (.fileC "Info.plist" 1 (some fxInfoGood)
    (.dirC "MacOS" (.fileC "Lilu" 4 none .nil) .nil)) .nil) .nil

/-- An ACPI reference directory with two tables. -/
def fxAcpiDir : FSTree :=
  .fileC "SSDT-EC.aml" 10 none (.fileC "SSDT-PLUG.aml" 8 none .nil)

/-- A Drivers reference directory with one driver. -/
def fxDriversDir : FSTree := .fileC "OpenRuntime.efi" 6 none .nil

/-- A Tools reference directory with one tool. -/
def fxToolsDir : FSTree := .fileC "OpenShell.efi" 6 none .nil

/-- A complete reference directory. -/
def fxDirs : OCDirs := ⟨fxAcpiDir, fxKextsDir, fxDriversDir, some fxToolsDir⟩

/-- A reference directory whose four subdirectories are empty. -/
def fxDirs0 : OCDirs := ⟨.nil, .nil, .nil, none⟩

/-- A stale ACPI entry: its file is no longer on disk. -/
def fxOldE : PValue :=
  .dict [("Comment", .str "old"), ("Enabled", .bool false),
         ("Path", .str "SSDT-OLD.aml")]

/-- A user-edited ACPI entry whose path matches the on-disk file only
case-insensitively. -/
def fxKeepE : PValue :=
  .dict [("Comment", .str "mine"), ("Enabled", .bool false),
         ("Path", .str "SSDT-EC.AML")]

/-- The `ACPI` container of the fixture document. -/
def fxAcpiC : Dict := [("Add", .arr [fxOldE, fxKeepE])]

/-- The `UEFI` container of the fixture document (string format). -/
def fxUefiC : Dict := [("Drivers", .arr [.str "OpenRuntime.EFI"])]

/-- A document with a stale ACPI entry, a retained (user-edited) ACPI
entry whose path differs in case from the on-disk file, and a
string-format driver entry. -/
def fxTree : Dict := [("ACPI", .dict fxAcpiC), ("UEFI", .dict fxUefiC)]

/-- The document produced by the first snapshot of `fxTree`. -/
def fxOut : Dict := (performSnapshot fxTree fxDirs false).1

/-- A document whose `ACPI` key holds a non-dict: `_snapshot_acpi` raises
on it. -/
def fxBadTree : Dict := [("ACPI", .int 0)]

/-- An existing kext entry with a user-set `MinKernel` and stale
`ExecutablePath` / `PlistPath`, whose `BundlePath` matches `Lilu.kext`
only case-insensitively. -/
def fxKextE : PValue :=
  .dict [("Arch", .str "Any"), ("BundlePath", .str "LILU.kext"),
         ("Comment", .str "patched by me"), ("Enabled", .bool true),
         ("ExecutablePath", .str "stale"), ("MaxKernel", .str ""),
         ("MinKernel", .str "19.0.0"), ("PlistPath", .str "stale2")]

/-- A `Kernel` container holding the single kext entry. -/
def fxKernC : Dict := [("Add", .arr [fxKextE])]

/-- A document with only the `Kernel` section. -/
def fxTreeK : Dict := [("Kernel", .dict fxKernC)]

/-- An existing dict-format driver entry. -/
def fxDrvE : PValue :=
  .dict [("Arguments", .str ""), ("Comment", .str "Old.efi"),
         ("Enabled", .bool true), ("LoadEarly", .bool false),
         ("Path", .str "Old.EFI")]

/-- A `UEFI` container with a dict-format driver list. -/
def fxUefiC2 : Dict := [("Drivers", .arr [fxDrvE])]

/-- A document with only the `UEFI` section, in dict format. -/
def fxTreeD : Dict := [("UEFI", .dict fxUefiC2)]

/-- A Drivers reference directory with a new and an existing driver. -/
def fxDriversDir2 : FSTree :=
  .fileC "NewDriver.efi" 1 none (.fileC "Old.efi" 1 none .nil)

/-- A document whose ACPI list holds a bare-string element next to a dict
entry. -/
def fxTreeMix : Dict :=
  [("ACPI", .dict [("Add", .arr [.str "SSDT-EC.aml",
    .dict [("Comment", .str "mine"), ("Enabled", .bool false),
           ("Path", .str "SSDT-EC.AML")]])])]

/-- The ACPI snapshot result on the mixed document (the call succeeds, so
the default is never used). -/
def fxOutMix : Dict := (snapshotAcpi fxTreeMix fxAcpiDir false).getD []

/-- A Kexts directory with two top-level kexts, the first containing a
plugin kext `Z.kext` under `Contents/PlugIns`. -/
def fxPluginKexts : FSTree :=
  .dirC "A.kext" (.dirC "Contents" (.fileC "Info.plist" 1 (some fxInfoGood)
      (.dirC "PlugIns" (.dirC "Z.kext" (.dirC "Contents"
        (.fileC "Info.plist" 1 (some fxInfoGood) .nil) .nil) .nil) .nil)) .nil)
  (.dirC "B.kext" (.dirC "Contents" (.fileC "Info.plist" 1 (some fxInfoGood) .nil) .nil)
  .nil)

/-- A Kexts directory with a kext lacking `Info.plist`, a kext whose
`Info.plist` lacks `CFBundleIdentifier`, and one valid kext. -/
def fxBadKexts : FSTree :=
  .dirC "Bad.kext" .nil
  (.dirC "Bad2.kext" (.dirC "Contents" (.fileC "Info.plist" 1
      (some [("CFBundleName", .str "nope")]) .nil) .nil)
  (.dirC "Good.kext" (.dirC "Contents" (.fileC "Info.plist" 1 (some fxInfoGood)
      (.dirC "MacOS" (.fileC "Lilu" 4 none .nil) .nil)) .nil) .nil))

/-! ## Order lemmas for the case-insensitive sort -/

theorem char_eq_of_toNat_eq {x y : Char} (h : x.toNat = y.toNat) : x = y :=
  Char.ext (UInt32.ext h)

theorem charsLe_total (a b : List Char) : charsLe a b = true ∨ charsLe b a = true := by
  induction a generalizing b with
  | nil => left; rfl
  | cons x xs ih =>
    cases b with
    | nil => right; rfl
    | cons y ys =>
      by_cases hxy : x = y
      · subst hxy
        rcases ih ys with h | h
        · left; simpa [charsLe] using h
        · right; simpa [charsLe] using h
      · have hne : y ≠ x := fun h => hxy h.symm
        have htn : x.toNat ≠ y.toNat := fun h => hxy (char_eq_of_toNat_eq h)
        rcases Nat.lt_or_ge x.toNat y.toNat with h | h
        · left; simp [charsLe, hxy, h]
        · right
          have : y.toNat < x.toNat := lt_of_le_of_ne h (fun hh => htn hh.symm)
          simp [charsLe, hne, this]

theorem charsLe_trans (a b c : List Char) (h1 : charsLe a b = true)
    (h2 : charsLe b c = true) : charsLe a c = true := by
  induction a generalizing b c with
  | nil => rfl
  | cons x xs ih =>
    cases b with
    | nil => simp [charsLe] at h1
    | cons y ys =>
      cases c with
      | nil => simp [charsLe] at h2
      | cons z zs =>
        by_cases hxy : x = y
        · subst hxy
          simp only [charsLe, if_pos rfl] at h1
          by_cases hxz : x = z
          · subst hxz
            simp only [charsLe, if_pos rfl] at h2 ⊢
            exact ih ys zs h1 h2
          · simp only [charsLe, if_neg hxz] at h2 ⊢
            exact h2
        · simp only [charsLe, if_neg hxy] at h1
          by_cases hyz : y = z
          · subst hyz
            simp only [charsLe, if_neg hxy] at h1 ⊢
            exact h1
          · simp only [charsLe, if_neg hyz] at h2
            have hlt : x.toNat < z.toNat :=
              Nat.lt_trans (of_decide_eq_true h1) (of_decide_eq_true h2)
            have hxz : x ≠ z := by
              intro h; subst h
              exact Nat.lt_irrefl _ hlt
            simp [charsLe, hxz, hlt]

instance : IsTotal String ciLE :=
  ⟨fun a b => by
    unfold ciLE strLeB
    rcases charsLe_total (strLower a).data (strLower b).data with h | h
    · exact Or.inl h
    · exact Or.inr h⟩

instance : IsTrans String ciLE :=
  ⟨fun a b c h1 h2 => charsLe_trans _ _ _ h1 h2⟩

theorem sortCI_pairwise (l : List String) : List.Pairwise ciLE (sortCI l) :=
  List.sorted_insertionSort ciLE l

theorem sortCI_perm (l : List String) : (sortCI l).Perm l :=
  List.perm_insertionSort ciLE l

theorem mem_sortCI {p : String} {l : List String} : p ∈ sortCI l ↔ p ∈ l :=
  List.mem_insertionSort ciLE

/-! ## Dictionary lemmas -/

theorem dictGet_dictSet_self (d : Dict) (k : String) (v : PValue) :
    dictGet (dictSet d k v) k = some v := by
  induction d with
  | nil => simp [dictSet, dictGet]
  | cons e rest ih =>
    by_cases h : e.1 = k
    · simp [dictSet, dictGet, h]
    · simp [dictSet, dictGet, h, ih]

theorem dictGet_dictSet_ne (d : Dict) (k k' : String) (v : PValue) (h : k' ≠ k) :
    dictGet (dictSet d k v) k' = dictGet d k' := by
  induction d with
  | nil => simp [dictSet, dictGet, Ne.symm h]
  | cons e rest ih =>
    obtain ⟨k1, v1⟩ := e
    by_cases he : k1 = k
    · subst he
      simp [dictSet, dictGet, Ne.symm h]
    · simp only [dictSet, if_neg he]
      by_cases he2 : k1 = k'
      · simp [dictGet, he2]
      · simp [dictGet, he2, ih]

theorem dictSet_dictSet_self (d : Dict) (k : String) (v w : PValue) :
    dictSet (dictSet d k v) k w = dictSet d k w := by
  induction d with
  | nil => simp [dictSet]
  | cons e rest ih =>
    by_cases h : e.1 = k
    · simp [dictSet, h]
    · simp [dictSet, h, ih]

theorem dictSet_self_of_get (d : Dict) (k : String) (v : PValue)
    (h : dictGet d k = some v) : dictSet d k v = d := by
  induction d with
  | nil => simp [dictGet] at h
  | cons e rest ih =>
    by_cases he : e.1 = k
    · subst he
      simp only [dictGet, if_pos rfl, Option.some.injEq] at h
      cases e
      simp_all [dictSet]
    · simp only [dictGet, if_neg he] at h
      simp [dictSet, he, ih h]

/-! ## Normal forms of the path comprehensions -/

theorem getFieldLower_eq (d : Dict) (k : String) (s : String)
    (h : getFieldLower d k = some s) : fieldLowerD d k = s := by
  unfold getFieldLower at h
  unfold fieldLowerD
  cases hg : dictGet d k with
  | none => simp [hg] at h; simp [h]
  | some v => cases v <;> simp_all

theorem dictFieldPaths_eq (k : String) (l : List PValue) :
    dictFieldPaths k l =
      if l.all (entryFieldOk k) then some (l.filterMap (entryFieldLower k)) else none := by
  induction l with
  | nil => simp [dictFieldPaths]
  | cons e rest ih =>
    cases e with
    | dict d =>
      cases hg : getFieldLower d k with
      | none =>
        have : entryFieldOk k (.dict d) = false := by simp [entryFieldOk, hg]
        simp [dictFieldPaths, hg, this]
      | some s =>
        have hok : entryFieldOk k (.dict d) = true := by simp [entryFieldOk, hg]
        have hfl : entryFieldLower k (.dict d) = some (fieldLowerD d k) := rfl
        have hs : fieldLowerD d k = s := getFieldLower_eq d k s hg
        by_cases hall : rest.all (entryFieldOk k)
        · simp [dictFieldPaths, hg, ih, hall, hok, hfl, hs]
        · simp [dictFieldPaths, hg, ih, hall, hok]
    | bool b => simpa [dictFieldPaths, entryFieldOk, entryFieldLower] using ih
    | int n => simpa [dictFieldPaths, entryFieldOk, entryFieldLower] using ih
    | str s => simpa [dictFieldPaths, entryFieldOk, entryFieldLower] using ih
    | bytes bs => simpa [dictFieldPaths, entryFieldOk, entryFieldLower] using ih
    | arr a => simpa [dictFieldPaths, entryFieldOk, entryFieldLower] using ih

theorem driversPaths_eq (l : List PValue) :
    driversPaths l =
      if l.all driverOk then some (l.filterMap driverPathLower) else none := by
  induction l with
  | nil => simp [driversPaths]
  | cons e rest ih =>
    cases hd : driverPathLower e with
    | none =>
      have : driverOk e = false := by simp [driverOk, hd]
      simp [driversPaths, hd, this, ih]
    | some s =>
      have hok : driverOk e = true := by simp [driverOk, hd]
      by_cases hall : rest.all driverOk
      · simp [driversPaths, hd, ih, hall, hok]
      · simp [driversPaths, hd, ih, hall, hok]

/-! ## The drivers append loop -/

theorem headIsDict_append (drivers : List PValue) (p : String) :
    headIsDict (drivers ++ [driverNew (headIsDict drivers) p]) = headIsDict drivers := by
  cases drivers with
  | nil => rfl
  | cons x rest => cases x <;> rfl

theorem driversAppend_eq (eps : List String) (drivers : List PValue) (ps : List String) :
    driversAppend eps drivers ps =
      drivers ++ (ps.filter (fun p => !(eps.contains (strLower p)))).map
        (driverNew (headIsDict drivers)) := by
  induction ps generalizing drivers with
  | nil => simp [driversAppend]
  | cons p rest ih =>
    simp only [driversAppend]
    by_cases hc : eps.contains (strLower p)
    · rw [if_pos (by simpa using hc), ih, List.filter_cons_of_neg (by simpa using hc)]
    · rw [if_neg (by simpa using hc), ih, headIsDict_append,
        List.filter_cons_of_pos (by simpa using hc),
        List.map_cons, List.append_assoc, List.singleton_append]

/-! ## Entry shape facts -/

theorem simpleKeep_acpiEntry (lowers : List String) (p : String) :
    simpleKeep lowers (acpiEntry p) = lowers.contains (strLower p) := rfl

theorem simpleKeep_toolEntry (lowers : List String) (p : String) :
    simpleKeep lowers (toolEntry p) = lowers.contains (strLower p) := rfl

theorem entryFieldLower_acpiEntry (p : String) :
    entryFieldLower "Path" (acpiEntry p) = some (strLower p) := rfl

theorem entryFieldLower_toolEntry (p : String) :
    entryFieldLower "Path" (toolEntry p) = some (strLower p) := rfl

theorem entryFieldOk_acpiEntry (p : String) :
    entryFieldOk "Path" (acpiEntry p) = true := rfl

theorem entryFieldOk_toolEntry (p : String) :
    entryFieldOk "Path" (toolEntry p) = true := rfl

theorem driverKeep_driverNew (lowers : List String) (b : Bool) (p : String) :
    driverKeep lowers (driverNew b p) = lowers.contains (strLower p) := by
  cases b <;> rfl

theorem driverPathLower_driverNew (b : Bool) (p : String) :
    driverPathLower (driverNew b p) = some (strLower p) := by
  cases b <;> rfl

theorem driverOk_driverNew (b : Bool) (p : String) :
    driverOk (driverNew b p) = true := by
  cases b <;> rfl

theorem entryFieldLower_kextToEntry (k : KextInfo) :
    entryFieldLower "BundlePath" (kextToEntry k) = some (strLower k.bundlePath) := rfl

theorem entryFieldOk_kextToEntry (k : KextInfo) :
    entryFieldOk "BundlePath" (kextToEntry k) = true := rfl

theorem entryFieldLower_dict {k : String} {e : PValue} {s : String}
    (h : entryFieldLower k e = some s) : ∃ d, e = .dict d ∧ fieldLowerD d k = s := by
  cases e <;> simp [entryFieldLower] at h
  case dict d => exact ⟨d, rfl, h⟩

/-! ## Small list utilities -/

theorem filterMap_eq_self_of {α : Type} (f : α → Option α) (l : List α)
    (h : ∀ a ∈ l, f a = some a) : l.filterMap f = l := by
  induction l with
  | nil => rfl
  | cons x rest ih =>
    rw [List.filterMap_cons, h x (List.mem_cons_self x rest),
      ih (fun a ha => h a (List.mem_cons_of_mem x ha))]

/-! ## Inversion of the section bodies -/

theorem simpleSection_inv {mk : String → PValue} {listKey : String}
    {cur : Option PValue} {scan : List String} {clean : Bool} {v : PValue}
    (h : simpleSection mk listKey cur scan clean = some v) :
    ∃ container add eps, sectionContainer cur = some container ∧
      sectionList container listKey clean = some add ∧
      dictFieldPaths "Path" add = some eps ∧
      v = .dict (dictSet container listKey (.arr
        ((add ++ simpleNews mk eps scan).filter (simpleKeep (scan.map strLower))))) := by
  unfold simpleSection at h
  simp only [bind, Option.bind_eq_some, Option.pure_def, Option.some.injEq] at h
  obtain ⟨container, hc, add, hl, eps, he, hv⟩ := h
  exact ⟨container, add, eps, hc, hl, he, hv.symm⟩

theorem driversSection_inv {cur : Option PValue} {scan : List String} {clean : Bool}
    {v : PValue} (h : driversSection cur scan clean = some v) :
    ∃ container ex eps, sectionContainer cur = some container ∧
      sectionList container "Drivers" clean = some ex ∧
      driversPaths ex = some eps ∧
      v = .dict (dictSet container "Drivers" (.arr
        ((driversAppend eps ex (sortCI scan)).filter (driverKeep (scan.map strLower))))) := by
  unfold driversSection at h
  simp only [bind, Option.bind_eq_some, Option.pure_def, Option.some.injEq] at h
  obtain ⟨container, hc, ex, hl, eps, he, hv⟩ := h
  exact ⟨container, ex, eps, hc, hl, he, hv.symm⟩

theorem kextsSection_inv {cur : Option PValue} {ks : List KextInfo} {clean : Bool}
    {v : PValue} (h : kextsSection cur ks clean = some v) :
    ∃ container add ebs, sectionContainer cur = some container ∧
      sectionList container "Add" clean = some add ∧
      dictFieldPaths "BundlePath" add = some ebs ∧
      v = .dict (dictSet container "Add" (.arr
        ((add ++ (ks.filter (fun k => !(ebs.contains (strLower k.bundlePath)))).map kextToEntry).filterMap
          (kextKeepRefresh ks)))) := by
  unfold kextsSection at h
  simp only [bind, Option.bind_eq_some, Option.pure_def, Option.some.injEq] at h
  obtain ⟨container, hc, add, hl, ebs, he, hv⟩ := h
  exact ⟨container, add, ebs, hc, hl, he, hv.symm⟩

/-! ## Forward evaluation of the section bodies -/

theorem simpleSection_eval (mk : String → PValue) (listKey : String)
    (cur : Option PValue) (scan : List String) (clean : Bool)
    (container : Dict) (add : List PValue)
    (hc : sectionContainer cur = some container)
    (hl : sectionList container listKey clean = some add)
    (hok : add.all (entryFieldOk "Path") = true) :
    simpleSection mk listKey cur scan clean =
      some (.dict (dictSet container listKey (.arr
        ((add ++ simpleNews mk (epsOf "Path" add) scan).filter
          (simpleKeep (scan.map strLower)))))) := by
  unfold simpleSection
  rw [hc]
  show (sectionList container listKey clean).bind _ = _
  rw [hl]
  show (dictFieldPaths "Path" add).bind _ = _
  rw [dictFieldPaths_eq, if_pos hok]
  rfl

theorem driversSection_eval (cur : Option PValue) (scan : List String) (clean : Bool)
    (container : Dict) (ex : List PValue)
    (hc : sectionContainer cur = some container)
    (hl : sectionList container "Drivers" clean = some ex)
    (hok : ex.all driverOk = true) :
    driversSection cur scan clean =
      some (.dict (dictSet container "Drivers" (.arr
        ((driversAppend (ex.filterMap driverPathLower) ex (sortCI scan)).filter
          (driverKeep (scan.map strLower)))))) := by
  unfold driversSection
  rw [hc]
  show (sectionList container "Drivers" clean).bind _ = _
  rw [hl]
  show (driversPaths ex).bind _ = _
  rw [driversPaths_eq, if_pos hok]
  rfl

theorem kextsSection_eval (cur : Option PValue) (ks : List KextInfo) (clean : Bool)
    (container : Dict) (add : List PValue)
    (hc : sectionContainer cur = some container)
    (hl : sectionList container "Add" clean = some add)
    (hok : add.all (entryFieldOk "BundlePath") = true) :
    kextsSection cur ks clean =
      some (.dict (dictSet container "Add" (.arr
        ((add ++ (ks.filter (fun k =>
            !((epsOf "BundlePath" add).contains (strLower k.bundlePath)))).map kextToEntry).filterMap
          (kextKeepRefresh ks))))) := by
  unfold kextsSection
  rw [hc]
  show (sectionList container "Add" clean).bind _ = _
  rw [hl]
  show (dictFieldPaths "BundlePath" add).bind _ = _
  rw [dictFieldPaths_eq, if_pos hok]
  rfl

/-! ## Idempotence of the section bodies under MERGE -/

theorem simpleSection_idem (mk : String → PValue) (listKey : String)
    (hmkL : ∀ p, entryFieldLower "Path" (mk p) = some (strLower p))
    (hmkK : ∀ lowers p, simpleKeep lowers (mk p) = lowers.contains (strLower p))
    (hmkOk : ∀ p, entryFieldOk "Path" (mk p) = true)
    {cur : Option PValue} {scan : List String} {v : PValue}
    (h : simpleSection mk listKey cur scan false = some v) :
    simpleSection mk listKey (some v) scan false = some v := by
  obtain ⟨container, add, eps, hc, hl, he, hv⟩ := simpleSection_inv h
  rw [dictFieldPaths_eq] at he
  by_cases hok : add.all (entryFieldOk "Path") = true
  case neg => rw [if_neg hok] at he; exact absurd he (by simp)
  rw [if_pos hok] at he
  have heps : eps = add.filterMap (entryFieldLower "Path") := (Option.some.inj he).symm
  have houtOk : ((add ++ simpleNews mk eps scan).filter
      (simpleKeep (scan.map strLower))).all (entryFieldOk "Path") = true := by
    rw [List.all_eq_true]
    intro e hm
    rcases List.mem_append.mp (List.mem_filter.mp hm).1 with hA | hN
    · exact List.all_eq_true.mp hok e hA
    · obtain ⟨p, _, rfl⟩ := List.mem_map.mp hN
      exact hmkOk p
  have hcov : ∀ p ∈ scan,
      strLower p ∈ ((add ++ simpleNews mk eps scan).filter
        (simpleKeep (scan.map strLower))).filterMap (entryFieldLower "Path") := by
    intro p hp
    have hlow : strLower p ∈ scan.map strLower := List.mem_map_of_mem strLower hp
    by_cases hin : eps.contains (strLower p)
    · have hinm : strLower p ∈ add.filterMap (entryFieldLower "Path") := by
        rw [← heps]; simpa using hin
      obtain ⟨e, heA, heL⟩ := List.mem_filterMap.mp hinm
      obtain ⟨d, rfl, hfl⟩ := entryFieldLower_dict heL
      have hkeep : simpleKeep (scan.map strLower) (.dict d) = true := by
        show (scan.map strLower).contains (fieldLowerD d "Path") = true
        rw [hfl]
        simpa using hlow
      exact List.mem_filterMap.mpr
        ⟨.dict d, List.mem_filter.mpr ⟨List.mem_append_left _ heA, hkeep⟩, heL⟩
    · have hpn : p ∈ (sortCI scan).filter (fun q => !(eps.contains (strLower q))) :=
        List.mem_filter.mpr ⟨mem_sortCI.mpr hp, by simpa using hin⟩
      have hmn : mk p ∈ simpleNews mk eps scan := List.mem_map_of_mem mk hpn
      have hkeep : simpleKeep (scan.map strLower) (mk p) = true := by
        rw [hmkK]
        simpa using hlow
      exact List.mem_filterMap.mpr
        ⟨mk p, List.mem_filter.mpr ⟨List.mem_append_right _ hmn, hkeep⟩, hmkL p⟩
  have hc2 : sectionContainer (some v) =
      some (dictSet container listKey (.arr ((add ++ simpleNews mk eps scan).filter
        (simpleKeep (scan.map strLower))))) := by
    rw [hv]; rfl
  have hl2 : sectionList (dictSet container listKey (.arr ((add ++ simpleNews mk eps scan).filter
      (simpleKeep (scan.map strLower))))) listKey false =
      some ((add ++ simpleNews mk eps scan).filter (simpleKeep (scan.map strLower))) := by
    unfold sectionList
    rw [if_neg (by simp), dictGet_dictSet_self]
  rw [simpleSection_eval mk listKey (some v) scan false _ _ hc2 hl2 houtOk]
  have hfil : (sortCI scan).filter (fun p => !((epsOf "Path"
      ((add ++ simpleNews mk eps scan).filter
        (simpleKeep (scan.map strLower)))).contains (strLower p))) = [] := by
    rw [List.filter_eq_nil_iff]
    intro q hq
    have hco : (epsOf "Path" ((add ++ simpleNews mk eps scan).filter
        (simpleKeep (scan.map strLower)))).contains (strLower q) = true := by
      simp only [epsOf]
      simpa using hcov q (mem_sortCI.mp hq)
    simp only [hco, Bool.not_true]
    exact Bool.false_ne_true
  have hnews2 : simpleNews mk (epsOf "Path" ((add ++ simpleNews mk eps scan).filter
      (simpleKeep (scan.map strLower)))) scan = [] := by
    show ((sortCI scan).filter (fun p => !((epsOf "Path"
      ((add ++ simpleNews mk eps scan).filter
        (simpleKeep (scan.map strLower)))).contains (strLower p)))).map mk = []
    rw [hfil]
    rfl
  rw [hnews2, List.append_nil]
  have hout2 : ((add ++ simpleNews mk eps scan).filter
        (simpleKeep (scan.map strLower))).filter (simpleKeep (scan.map strLower)) =
      (add ++ simpleNews mk eps scan).filter (simpleKeep (scan.map strLower)) :=
    List.filter_eq_self.mpr (fun e hm => (List.mem_filter.mp hm).2)
  rw [hout2, dictSet_dictSet_self, hv]

theorem driverKeep_of_pathLower (lowers : List String) {e : PValue} {s : String}
    (h : driverPathLower e = some s) : driverKeep lowers e = lowers.contains s := by
  cases e <;> simp [driverPathLower] at h
  case str s0 => rw [← h]; rfl
  case dict d =>
    show lowers.contains (fieldLowerD d "Path") = lowers.contains s
    rw [getFieldLower_eq d "Path" s h]

theorem driversSection_idem {cur : Option PValue} {scan : List String} {v : PValue}
    (h : driversSection cur scan false = some v) :
    driversSection (some v) scan false = some v := by
  obtain ⟨container, ex, eps, hc, hl, he, hv⟩ := driversSection_inv h
  rw [driversPaths_eq] at he
  by_cases hok : ex.all driverOk = true
  case neg => rw [if_neg hok] at he; exact absurd he (by simp)
  rw [if_pos hok] at he
  have heps : eps = ex.filterMap driverPathLower := (Option.some.inj he).symm
  have hcomb := driversAppend_eq eps ex (sortCI scan)
  have houtOk : ((driversAppend eps ex (sortCI scan)).filter
      (driverKeep (scan.map strLower))).all driverOk = true := by
    rw [List.all_eq_true]
    intro e hm
    have hmc := (List.mem_filter.mp hm).1
    rw [hcomb] at hmc
    rcases List.mem_append.mp hmc with hA | hN
    · exact List.all_eq_true.mp hok e hA
    · obtain ⟨p, _, rfl⟩ := List.mem_map.mp hN
      exact driverOk_driverNew _ p
  have hcov : ∀ p ∈ scan,
      strLower p ∈ ((driversAppend eps ex (sortCI scan)).filter
        (driverKeep (scan.map strLower))).filterMap driverPathLower := by
    intro p hp
    have hlow : strLower p ∈ scan.map strLower := List.mem_map_of_mem strLower hp
    by_cases hin : eps.contains (strLower p)
    · have hinm : strLower p ∈ ex.filterMap driverPathLower := by
        rw [← heps]; simpa using hin
      obtain ⟨e, heA, heL⟩ := List.mem_filterMap.mp hinm
      have hkeep : driverKeep (scan.map strLower) e = true := by
        rw [driverKeep_of_pathLower _ heL]
        simpa using hlow
      refine List.mem_filterMap.mpr ⟨e, List.mem_filter.mpr ⟨?_, hkeep⟩, heL⟩
      rw [hcomb]
      exact List.mem_append_left _ heA
    · have hpn : p ∈ (sortCI scan).filter (fun q => !(eps.contains (strLower q))) :=
        List.mem_filter.mpr ⟨mem_sortCI.mpr hp, by simpa using hin⟩
      have hmn : driverNew (headIsDict ex) p ∈
          (((sortCI scan).filter (fun q => !(eps.contains (strLower q)))).map
            (driverNew (headIsDict ex))) := List.mem_map_of_mem _ hpn
      have hkeep : driverKeep (scan.map strLower) (driverNew (headIsDict ex) p) = true := by
        rw [driverKeep_driverNew]
        simpa using hlow
      refine List.mem_filterMap.mpr ⟨driverNew (headIsDict ex) p,
        List.mem_filter.mpr ⟨?_, hkeep⟩, driverPathLower_driverNew _ p⟩
      rw [hcomb]
      exact List.mem_append_right _ hmn
  have hc2 : sectionContainer (some v) =
      some (dictSet container "Drivers" (.arr ((driversAppend eps ex (sortCI scan)).filter
        (driverKeep (scan.map strLower))))) := by
    rw [hv]; rfl
  have hl2 : sectionList (dictSet container "Drivers" (.arr
      ((driversAppend eps ex (sortCI scan)).filter (driverKeep (scan.map strLower)))))
      "Drivers" false =
      some ((driversAppend eps ex (sortCI scan)).filter (driverKeep (scan.map strLower))) := by
    unfold sectionList
    rw [if_neg (by simp), dictGet_dictSet_self]
  rw [driversSection_eval (some v) scan false _ _ hc2 hl2 houtOk]
  have hfil2 : (sortCI scan).filter (fun p => !((((driversAppend eps ex (sortCI scan)).filter
      (driverKeep (scan.map strLower))).filterMap driverPathLower).contains (strLower p))) = [] := by
    rw [List.filter_eq_nil_iff]
    intro q hq
    have hco : (((driversAppend eps ex (sortCI scan)).filter
        (driverKeep (scan.map strLower))).filterMap driverPathLower).contains
        (strLower q) = true := by
      simpa using hcov q (mem_sortCI.mp hq)
    simp only [hco, Bool.not_true]
    exact Bool.false_ne_true
  rw [driversAppend_eq (((driversAppend eps ex (sortCI scan)).filter
        (driverKeep (scan.map strLower))).filterMap driverPathLower)
      ((driversAppend eps ex (sortCI scan)).filter (driverKeep (scan.map strLower)))
      (sortCI scan), hfil2, List.map_nil, List.append_nil]
  have hout2 : ((driversAppend eps ex (sortCI scan)).filter
        (driverKeep (scan.map strLower))).filter (driverKeep (scan.map strLower)) =
      (driversAppend eps ex (sortCI scan)).filter (driverKeep (scan.map strLower)) :=
    List.filter_eq_self.mpr (fun e hm => (List.mem_filter.mp hm).2)
  rw [hout2, dictSet_dictSet_self, hv]

/-! ## Kext refresh lemmas -/

theorem dictGet_refreshKext_ne (ks : List KextInfo) (bl : String) (d : Dict)
    (k' : String) (h1 : k' ≠ "ExecutablePath") (h2 : k' ≠ "PlistPath") :
    dictGet (refreshKext ks bl d) k' = dictGet d k' := by
  unfold refreshKext
  cases hf : ks.find? (fun k => strLower k.bundlePath = bl) with
  | none => rfl
  | some k1 => rw [dictGet_dictSet_ne _ _ _ _ h2, dictGet_dictSet_ne _ _ _ _ h1]

theorem fieldLowerD_refreshKext (ks : List KextInfo) (bl : String) (d : Dict) :
    fieldLowerD (refreshKext ks bl d) "BundlePath" = fieldLowerD d "BundlePath" := by
  unfold fieldLowerD
  rw [dictGet_refreshKext_ne ks bl d "BundlePath" (by decide) (by decide)]

theorem getFieldLower_refreshKext (ks : List KextInfo) (bl : String) (d : Dict) :
    getFieldLower (refreshKext ks bl d) "BundlePath" = getFieldLower d "BundlePath" := by
  unfold getFieldLower
  rw [dictGet_refreshKext_ne ks bl d "BundlePath" (by decide) (by decide)]

theorem refreshKext_idem (ks : List KextInfo) (bl : String) (d : Dict) :
    refreshKext ks bl (refreshKext ks bl d) = refreshKext ks bl d := by
  unfold refreshKext
  cases hf : ks.find? (fun k => strLower k.bundlePath = bl) with
  | none => rfl
  | some k1 =>
    have h1 : dictGet (dictSet (dictSet d "ExecutablePath" (.str k1.execPath))
        "PlistPath" (.str k1.plistPath)) "ExecutablePath" = some (.str k1.execPath) := by
      rw [dictGet_dictSet_ne _ _ _ _ (by decide), dictGet_dictSet_self]
    have h2 : dictGet (dictSet (dictSet d "ExecutablePath" (.str k1.execPath))
        "PlistPath" (.str k1.plistPath)) "PlistPath" = some (.str k1.plistPath) :=
      dictGet_dictSet_self _ _ _
    show dictSet (dictSet (dictSet (dictSet d "ExecutablePath" (.str k1.execPath))
        "PlistPath" (.str k1.plistPath)) "ExecutablePath" (.str k1.execPath))
        "PlistPath" (.str k1.plistPath) =
      dictSet (dictSet d "ExecutablePath" (.str k1.execPath)) "PlistPath" (.str k1.plistPath)
    rw [dictSet_self_of_get _ _ _ h1, dictSet_self_of_get _ _ _ h2]

theorem kextKeepRefresh_dict (ks : List KextInfo) (d : Dict)
    (hcont : (ks.map (fun k => strLower k.bundlePath)).contains
      (fieldLowerD d "BundlePath") = true) :
    kextKeepRefresh ks (.dict d) =
      some (.dict (refreshKext ks (fieldLowerD d "BundlePath") d)) := by
  show (if (ks.map (fun k => strLower k.bundlePath)).contains
      (fieldLowerD d "BundlePath") = true
    then some (PValue.dict (refreshKext ks (fieldLowerD d "BundlePath") d))
    else none) = some (PValue.dict (refreshKext ks (fieldLowerD d "BundlePath") d))
  rw [if_pos hcont]

theorem kextKeepRefresh_inv {ks : List KextInfo} {e e' : PValue}
    (h : kextKeepRefresh ks e = some e') :
    ∃ d, e = .dict d ∧
      (ks.map (fun k => strLower k.bundlePath)).contains
        (fieldLowerD d "BundlePath") = true ∧
      e' = .dict (refreshKext ks (fieldLowerD d "BundlePath") d) := by
  cases e with
  | bool b => exact Option.noConfusion h
  | int n => exact Option.noConfusion h
  | str s => exact Option.noConfusion h
  | bytes bs => exact Option.noConfusion h
  | arr a => exact Option.noConfusion h
  | dict d =>
    by_cases hcont : (ks.map (fun k => strLower k.bundlePath)).contains
        (fieldLowerD d "BundlePath") = true
    · rw [kextKeepRefresh_dict ks d hcont] at h
      exact ⟨d, rfl, hcont, (Option.some.inj h).symm⟩
    · have hnone : kextKeepRefresh ks (.dict d) = none := by
        show (if (ks.map (fun k => strLower k.bundlePath)).contains
            (fieldLowerD d "BundlePath") = true
          then some (PValue.dict (refreshKext ks (fieldLowerD d "BundlePath") d))
          else none) = none
        rw [if_neg hcont]
      rw [hnone] at h
      exact Option.noConfusion h

theorem kextKeepRefresh_self {ks : List KextInfo} {e e' : PValue}
    (h : kextKeepRefresh ks e = some e') : kextKeepRefresh ks e' = some e' := by
  obtain ⟨d, rfl, hcont, rfl⟩ := kextKeepRefresh_inv h
  have hfl := fieldLowerD_refreshKext ks (fieldLowerD d "BundlePath") d
  rw [kextKeepRefresh_dict ks _ (by rw [hfl]; exact hcont), hfl, refreshKext_idem]

theorem kextsSection_idem {cur : Option PValue} {ks : List KextInfo} {v : PValue}
    (h : kextsSection cur ks false = some v) :
    kextsSection (some v) ks false = some v := by
  obtain ⟨container, add, ebs, hc, hl, he, hv⟩ := kextsSection_inv h
  rw [dictFieldPaths_eq] at he
  by_cases hok : add.all (entryFieldOk "BundlePath") = true
  case neg => rw [if_neg hok] at he; exact absurd he (by simp)
  rw [if_pos hok] at he
  have hebs : ebs = add.filterMap (entryFieldLower "BundlePath") := (Option.some.inj he).symm
  have houtOk : ((add ++ (ks.filter (fun k =>
      !(ebs.contains (strLower k.bundlePath)))).map kextToEntry).filterMap
        (kextKeepRefresh ks)).all (entryFieldOk "BundlePath") = true := by
    rw [List.all_eq_true]
    intro e hm
    obtain ⟨e0, he0, heq⟩ := List.mem_filterMap.mp hm
    obtain ⟨d, rfl, hcont, rfl⟩ := kextKeepRefresh_inv heq
    show (getFieldLower (refreshKext ks (fieldLowerD d "BundlePath") d) "BundlePath").isSome = true
    rw [getFieldLower_refreshKext]
    rcases List.mem_append.mp he0 with hA | hN
    · exact List.all_eq_true.mp hok _ hA
    · obtain ⟨k, _, hk⟩ := List.mem_map.mp hN
      have : entryFieldOk "BundlePath" (kextToEntry k) = true := entryFieldOk_kextToEntry k
      rw [hk] at this
      exact this
  have hcov : ∀ k ∈ ks, strLower k.bundlePath ∈
      ((add ++ (ks.filter (fun k0 =>
        !(ebs.contains (strLower k0.bundlePath)))).map kextToEntry).filterMap
          (kextKeepRefresh ks)).filterMap (entryFieldLower "BundlePath") := by
    intro k hk
    have hbl : strLower k.bundlePath ∈ ks.map (fun k0 => strLower k0.bundlePath) :=
      List.mem_map_of_mem _ hk
    by_cases hin : ebs.contains (strLower k.bundlePath)
    · have hinm : strLower k.bundlePath ∈ add.filterMap (entryFieldLower "BundlePath") := by
        rw [← hebs]; simpa using hin
      obtain ⟨e, heA, heL⟩ := List.mem_filterMap.mp hinm
      obtain ⟨d, rfl, hfl⟩ := entryFieldLower_dict heL
      have hcont : (ks.map (fun k0 => strLower k0.bundlePath)).contains
          (fieldLowerD d "BundlePath") = true := by
        rw [hfl]; simpa using hbl
      refine List.mem_filterMap.mpr ⟨.dict (refreshKext ks (fieldLowerD d "BundlePath") d),
        List.mem_filterMap.mpr ⟨.dict d, List.mem_append_left _ heA,
          kextKeepRefresh_dict ks d hcont⟩, ?_⟩
      show some (fieldLowerD (refreshKext ks (fieldLowerD d "BundlePath") d) "BundlePath") =
        some (strLower k.bundlePath)
      rw [fieldLowerD_refreshKext, hfl]
    · have hkn : kextToEntry k ∈ (ks.filter (fun k0 =>
          !(ebs.contains (strLower k0.bundlePath)))).map kextToEntry :=
        List.mem_map_of_mem _ (List.mem_filter.mpr ⟨hk, by simpa using hin⟩)
      obtain ⟨kd, hkd, hkfl⟩ := entryFieldLower_dict (entryFieldLower_kextToEntry k)
      have hcont : (ks.map (fun k0 => strLower k0.bundlePath)).contains
          (fieldLowerD kd "BundlePath") = true := by
        rw [hkfl]; simpa using hbl
      have hkr : kextKeepRefresh ks (kextToEntry k) =
          some (.dict (refreshKext ks (fieldLowerD kd "BundlePath") kd)) := by
        rw [hkd]; exact kextKeepRefresh_dict ks kd hcont
      refine List.mem_filterMap.mpr ⟨.dict (refreshKext ks (fieldLowerD kd "BundlePath") kd),
        List.mem_filterMap.mpr ⟨kextToEntry k, List.mem_append_right _ hkn, hkr⟩, ?_⟩
      show some (fieldLowerD (refreshKext ks (fieldLowerD kd "BundlePath") kd) "BundlePath") =
        some (strLower k.bundlePath)
      rw [fieldLowerD_refreshKext, hkfl]
  have hc2 : sectionContainer (some v) =
      some (dictSet container "Add" (.arr ((add ++ (ks.filter (fun k =>
        !(ebs.contains (strLower k.bundlePath)))).map kextToEntry).filterMap
          (kextKeepRefresh ks)))) := by
    rw [hv]; rfl
  have hl2 : sectionList (dictSet container "Add" (.arr ((add ++ (ks.filter (fun k =>
      !(ebs.contains (strLower k.bundlePath)))).map kextToEntry).filterMap
        (kextKeepRefresh ks)))) "Add" false =
      some ((add ++ (ks.filter (fun k =>
        !(ebs.contains (strLower k.bundlePath)))).map kextToEntry).filterMap
          (kextKeepRefresh ks)) := by
    unfold sectionList
    rw [if_neg (by simp), dictGet_dictSet_self]
  rw [kextsSection_eval (some v) ks false _ _ hc2 hl2 houtOk]
  have hfil2 : ks.filter (fun k => !((epsOf "BundlePath" ((add ++ (ks.filter (fun k0 =>
      !(ebs.contains (strLower k0.bundlePath)))).map kextToEntry).filterMap
        (kextKeepRefresh ks))).contains (strLower k.bundlePath))) = [] := by
    rw [List.filter_eq_nil_iff]
    intro k hk
    have hco : (epsOf "BundlePath" ((add ++ (ks.filter (fun k0 =>
        !(ebs.contains (strLower k0.bundlePath)))).map kextToEntry).filterMap
          (kextKeepRefresh ks))).contains (strLower k.bundlePath) = true := by
      simp only [epsOf]
      simpa using hcov k hk
    simp only [hco, Bool.not_true]
    exact Bool.false_ne_true
  rw [hfil2, List.map_nil, List.append_nil]
  have hout2 : ((add ++ (ks.filter (fun k =>
      !(ebs.contains (strLower k.bundlePath)))).map kextToEntry).filterMap
        (kextKeepRefresh ks)).filterMap (kextKeepRefresh ks) =
      (add ++ (ks.filter (fun k =>
        !(ebs.contains (strLower k.bundlePath)))).map kextToEntry).filterMap
          (kextKeepRefresh ks) := by
    apply filterMap_eq_self_of
    intro e hm
    obtain ⟨e0, _, heq⟩ := List.mem_filterMap.mp hm
    exact kextKeepRefresh_self heq
  rw [hout2, dictSet_dictSet_self, hv]

/-! ## The lifted operations -/

theorem snapshotAcpi_inv {tree : Dict} {fs : FSTree} {clean : Bool} {t : Dict}
    (h : snapshotAcpi tree fs clean = some t) :
    ∃ v, simpleSection acpiEntry "Add" (dictGet tree "ACPI") (walkFS acpiOk fs) clean =
        some v ∧ t = dictSet tree "ACPI" v := by
  unfold snapshotAcpi at h
  rw [Option.map_eq_some'] at h
  obtain ⟨v, hs, hv⟩ := h
  exact ⟨v, hs, hv.symm⟩

theorem snapshotKexts_inv {tree : Dict} {fs : FSTree} {clean : Bool} {t : Dict}
    (h : snapshotKexts tree fs clean = some t) :
    ∃ v, kextsSection (dictGet tree "Kernel") (kextWalk fs) clean = some v ∧
      t = dictSet tree "Kernel" v := by
  unfold snapshotKexts at h
  rw [Option.map_eq_some'] at h
  obtain ⟨v, hs, hv⟩ := h
  exact ⟨v, hs, hv.symm⟩

theorem snapshotDrivers_inv {tree : Dict} {fs : FSTree} {clean : Bool} {t : Dict}
    (h : snapshotDrivers tree fs clean = some t) :
    ∃ v, driversSection (dictGet tree "UEFI") (walkFS efiOk fs) clean = some v ∧
      t = dictSet tree "UEFI" v := by
  unfold snapshotDrivers at h
  rw [Option.map_eq_some'] at h
  obtain ⟨v, hs, hv⟩ := h
  exact ⟨v, hs, hv.symm⟩

theorem snapshotTools_inv {tree : Dict} {fs : Option FSTree} {clean : Bool} {t : Dict}
    (h : snapshotTools tree fs clean = some t) :
    (fs = none ∧ t = tree) ∨
    (∃ ft v, fs = some ft ∧
      simpleSection toolEntry "Tools" (dictGet tree "Misc") (walkFS efiOk ft) clean =
        some v ∧ t = dictSet tree "Misc" v) := by
  cases fs with
  | none => exact Or.inl ⟨rfl, (Option.some.inj h).symm⟩
  | some ft =>
    right
    unfold snapshotTools at h
    rw [Option.map_eq_some'] at h
    obtain ⟨v, hs, hv⟩ := h
    exact ⟨ft, v, rfl, hs, hv.symm⟩

theorem snapshotAcpi_frame {tree : Dict} {fs : FSTree} {clean : Bool} {t : Dict}
    (h : snapshotAcpi tree fs clean = some t) (k : String) (hk : k ≠ "ACPI") :
    dictGet t k = dictGet tree k := by
  obtain ⟨v, _, rfl⟩ := snapshotAcpi_inv h
  exact dictGet_dictSet_ne _ _ _ _ hk

theorem snapshotKexts_frame {tree : Dict} {fs : FSTree} {clean : Bool} {t : Dict}
    (h : snapshotKexts tree fs clean = some t) (k : String) (hk : k ≠ "Kernel") :
    dictGet t k = dictGet tree k := by
  obtain ⟨v, _, rfl⟩ := snapshotKexts_inv h
  exact dictGet_dictSet_ne _ _ _ _ hk

theorem snapshotDrivers_frame {tree : Dict} {fs : FSTree} {clean : Bool} {t : Dict}
    (h : snapshotDrivers tree fs clean = some t) (k : String) (hk : k ≠ "UEFI") :
    dictGet t k = dictGet tree k := by
  obtain ⟨v, _, rfl⟩ := snapshotDrivers_inv h
  exact dictGet_dictSet_ne _ _ _ _ hk

theorem snapshotTools_frame {tree : Dict} {fs : Option FSTree} {clean : Bool} {t : Dict}
    (h : snapshotTools tree fs clean = some t) (k : String) (hk : k ≠ "Misc") :
    dictGet t k = dictGet tree k := by
  rcases snapshotTools_inv h with ⟨_, rfl⟩ | ⟨ft, v, _, _, rfl⟩
  · rfl
  · exact dictGet_dictSet_ne _ _ _ _ hk

theorem snapshotAcpi_self {tree : Dict} {fs : FSTree} {v : PValue}
    (hv : dictGet tree "ACPI" = some v)
    (hid : simpleSection acpiEntry "Add" (some v) (walkFS acpiOk fs) false = some v) :
    snapshotAcpi tree fs false = some tree := by
  unfold snapshotAcpi
  rw [hv, hid]
  show some (dictSet tree "ACPI" v) = some tree
  rw [dictSet_self_of_get _ _ _ hv]

theorem snapshotKexts_self {tree : Dict} {fs : FSTree} {v : PValue}
    (hv : dictGet tree "Kernel" = some v)
    (hid : kextsSection (some v) (kextWalk fs) false = some v) :
    snapshotKexts tree fs false = some tree := by
  unfold snapshotKexts
  rw [hv, hid]
  show some (dictSet tree "Kernel" v) = some tree
  rw [dictSet_self_of_get _ _ _ hv]

theorem snapshotDrivers_self {tree : Dict} {fs : FSTree} {v : PValue}
    (hv : dictGet tree "UEFI" = some v)
    (hid : driversSection (some v) (walkFS efiOk fs) false = some v) :
    snapshotDrivers tree fs false = some tree := by
  unfold snapshotDrivers
  rw [hv, hid]
  show some (dictSet tree "UEFI" v) = some tree
  rw [dictSet_self_of_get _ _ _ hv]

theorem snapshotTools_self {tree : Dict} {ft : FSTree} {v : PValue}
    (hv : dictGet tree "Misc" = some v)
    (hid : simpleSection toolEntry "Tools" (some v) (walkFS efiOk ft) false = some v) :
    snapshotTools tree (some ft) false = some tree := by
  show (simpleSection toolEntry "Tools" (dictGet tree "Misc") (walkFS efiOk ft) false).map
      (fun v => dictSet tree "Misc" v) = some tree
  rw [hv, hid]
  show some (dictSet tree "Misc" v) = some tree
  rw [dictSet_self_of_get _ _ _ hv]

/-! ## Claim C1 -/

/-- C1: snapshot in MERGE mode is idempotent.  If `performSnapshot` on a
document and an unchanged reference directory succeeds and yields the
reconciled document `t`, then running `performSnapshot` again on `t` with
the same directory succeeds and returns `t` unchanged: the same four
section lists (ACPI Add, Kernel Add, UEFI Drivers, Misc Tools) result
both times and the second call changes no content at all. -/
theorem C1_snapshot_merge_idempotent (tree : Dict) (dirs : OCDirs) (t : Dict)
    (h : performSnapshot tree dirs false = (t, true)) :
    performSnapshot t dirs false = (t, true) := by
  unfold performSnapshot at h
  split at h
  case h_1 => exact absurd h (by simp)
  case h_2 t1 h1 =>
  split at h
  case h_1 => exact absurd h (by simp)
  case h_2 t2 h2 =>
  split at h
  case h_1 => exact absurd h (by simp)
  case h_2 t3 h3 =>
  split at h
  case h_1 => exact absurd h (by simp)
  case h_2 t4 h4 =>
  rw [Prod.mk.injEq] at h
  obtain ⟨ht, -⟩ := h
  subst ht
  obtain ⟨v1, hs1, hv1⟩ := snapshotAcpi_inv h1
  obtain ⟨v2, hs2, hv2⟩ := snapshotKexts_inv h2
  obtain ⟨v3, hs3, hv3⟩ := snapshotDrivers_inv h3
  have hg1 : dictGet t4 "ACPI" = some v1 := by
    rw [snapshotTools_frame h4 _ (by decide), snapshotDrivers_frame h3 _ (by decide),
      snapshotKexts_frame h2 _ (by decide), hv1, dictGet_dictSet_self]
  have hg2 : dictGet t4 "Kernel" = some v2 := by
    rw [snapshotTools_frame h4 _ (by decide), snapshotDrivers_frame h3 _ (by decide),
      hv2, dictGet_dictSet_self]
  have hg3 : dictGet t4 "UEFI" = some v3 := by
    rw [snapshotTools_frame h4 _ (by decide), hv3, dictGet_dictSet_self]
  have hr1 : snapshotAcpi t4 dirs.acpi false = some t4 :=
    snapshotAcpi_self hg1 (simpleSection_idem acpiEntry "Add" entryFieldLower_acpiEntry
      simpleKeep_acpiEntry entryFieldOk_acpiEntry hs1)
  have hr2 : snapshotKexts t4 dirs.kexts false = some t4 :=
    snapshotKexts_self hg2 (kextsSection_idem hs2)
  have hr3 : snapshotDrivers t4 dirs.drivers false = some t4 :=
    snapshotDrivers_self hg3 (driversSection_idem hs3)
  have hr4 : snapshotTools t4 dirs.tools false = some t4 := by
    rcases snapshotTools_inv h4 with ⟨hnone, _⟩ | ⟨ft, v4, hsome, hs4, hv4⟩
    · rw [hnone]; rfl
    · have hg4 : dictGet t4 "Misc" = some v4 := by
        rw [hv4, dictGet_dictSet_self]
      rw [hsome]
      exact snapshotTools_self hg4 (simpleSection_idem toolEntry "Tools"
        entryFieldLower_toolEntry simpleKeep_toolEntry entryFieldOk_toolEntry hs4)
  simp only [performSnapshot, hr1, hr2, hr3, hr4]

/-- C1 witness: a concrete document and reference directory on which the
first snapshot succeeds and the second returns the same document. -/
theorem C1_witness :
    performSnapshot fxTree fxDirs false = (fxOut, true) ∧
    performSnapshot fxOut fxDirs false = (fxOut, true) :=
  ⟨rfl, C1_snapshot_merge_idempotent fxTree fxDirs fxOut rfl⟩

/-! ## Claim C8 -/

/-- C8: failure semantics of the composite snapshot.  The four sections
run in the fixed order ACPI, Kexts, Drivers, Tools; if one raises, the
call aborts reporting failure, the sections reconciled before the failing
one remain applied to the in-memory document, and the sections not yet
processed are untouched (their keys in the resulting document are exactly
those of the original document). -/
theorem C8_failure_aborts_later_sections (tree : Dict) (dirs : OCDirs) (clean : Bool)
    (t : Dict) (h : performSnapshot tree dirs clean = (t, false)) :
    (snapshotAcpi tree dirs.acpi clean = none ∧ t = tree) ∨
    (∃ t1, snapshotAcpi tree dirs.acpi clean = some t1 ∧
      snapshotKexts t1 dirs.kexts clean = none ∧ t = t1 ∧
      dictGet t "Kernel" = dictGet tree "Kernel" ∧
      dictGet t "UEFI" = dictGet tree "UEFI" ∧
      dictGet t "Misc" = dictGet tree "Misc") ∨
    (∃ t1 t2, snapshotAcpi tree dirs.acpi clean = some t1 ∧
      snapshotKexts t1 dirs.kexts clean = some t2 ∧
      snapshotDrivers t2 dirs.drivers clean = none ∧ t = t2 ∧
      dictGet t "UEFI" = dictGet tree "UEFI" ∧
      dictGet t "Misc" = dictGet tree "Misc") ∨
    (∃ t1 t2 t3, snapshotAcpi tree dirs.acpi clean = some t1 ∧
      snapshotKexts t1 dirs.kexts clean = some t2 ∧
      snapshotDrivers t2 dirs.drivers clean = some t3 ∧
      snapshotTools t3 dirs.tools clean = none ∧ t = t3 ∧
      dictGet t "Misc" = dictGet tree "Misc") := by
  unfold performSnapshot at h
  split at h
  case h_1 h1 =>
    rw [Prod.mk.injEq] at h
    exact Or.inl ⟨h1, h.1.symm⟩
  case h_2 t1 h1 =>
  split at h
  case h_1 h2 =>
    rw [Prod.mk.injEq] at h
    obtain ⟨ht, -⟩ := h
    subst ht
    refine Or.inr (Or.inl ⟨t1, h1, h2, rfl, ?_, ?_, ?_⟩) <;>
      exact snapshotAcpi_frame h1 _ (by decide)
  case h_2 t2 h2 =>
  split at h
  case h_1 h3 =>
    rw [Prod.mk.injEq] at h
    obtain ⟨ht, -⟩ := h
    subst ht
    refine Or.inr (Or.inr (Or.inl ⟨t1, t2, h1, h2, h3, rfl, ?_, ?_⟩)) <;>
      rw [snapshotKexts_frame h2 _ (by decide)] <;>
      exact snapshotAcpi_frame h1 _ (by decide)
  case h_2 t3 h3 =>
  split at h
  case h_1 h4 =>
    rw [Prod.mk.injEq] at h
    obtain ⟨ht, -⟩ := h
    subst ht
    refine Or.inr (Or.inr (Or.inr ⟨t1, t2, t3, h1, h2, h3, h4, rfl, ?_⟩))
    rw [snapshotDrivers_frame h3 _ (by decide), snapshotKexts_frame h2 _ (by decide)]
    exact snapshotAcpi_frame h1 _ (by decide)
  case h_2 t4 h4 =>
    rw [Prod.mk.injEq] at h
    exact absurd h.2 (by simp)

/-- C8 witness: a document whose `ACPI` value is a non-dict makes the
first section raise; the composite reports failure and the document is
returned untouched. -/
theorem C8_witness :
    (snapshotAcpi fxBadTree fxDirs0.acpi false = none ∧ fxBadTree = fxBadTree) ∨
    (∃ t1, snapshotAcpi fxBadTree fxDirs0.acpi false = some t1 ∧
      snapshotKexts t1 fxDirs0.kexts false = none ∧ fxBadTree = t1 ∧
      dictGet fxBadTree "Kernel" = dictGet fxBadTree "Kernel" ∧
      dictGet fxBadTree "UEFI" = dictGet fxBadTree "UEFI" ∧
      dictGet fxBadTree "Misc" = dictGet fxBadTree "Misc") ∨
    (∃ t1 t2, snapshotAcpi fxBadTree fxDirs0.acpi false = some t1 ∧
      snapshotKexts t1 fxDirs0.kexts false = some t2 ∧
      snapshotDrivers t2 fxDirs0.drivers false = none ∧ fxBadTree = t2 ∧
      dictGet fxBadTree "UEFI" = dictGet fxBadTree "UEFI" ∧
      dictGet fxBadTree "Misc" = dictGet fxBadTree "Misc") ∨
    (∃ t1 t2 t3, snapshotAcpi fxBadTree fxDirs0.acpi false = some t1 ∧
      snapshotKexts t1 fxDirs0.kexts false = some t2 ∧
      snapshotDrivers t2 fxDirs0.drivers false = some t3 ∧
      snapshotTools t3 fxDirs0.tools false = none ∧ fxBadTree = t3 ∧
      dictGet fxBadTree "Misc" = dictGet fxBadTree "Misc") :=
  C8_failure_aborts_later_sections fxBadTree fxDirs0 false fxBadTree rfl

/-! ## Merge and clean structure of the section bodies -/

theorem simpleNews_keep (mk : String → PValue)
    (hmkK : ∀ lowers p, simpleKeep lowers (mk p) = lowers.contains (strLower p))
    (eps : List String) (scan : List String) :
    (simpleNews mk eps scan).filter (simpleKeep (scan.map strLower)) =
      simpleNews mk eps scan := by
  apply List.filter_eq_self.mpr
  intro e hm
  obtain ⟨p, hpf, rfl⟩ := List.mem_map.mp hm
  rw [hmkK]
  have : p ∈ scan := mem_sortCI.mp (List.mem_of_mem_filter hpf)
  simpa using List.mem_map_of_mem strLower this

theorem simpleSection_merge (mk : String → PValue) (listKey : String)
    (cur : Option PValue) (scan : List String) (container : Dict) (add : List PValue)
    (hc : sectionContainer cur = some container)
    (hl : sectionList container listKey false = some add)
    (hok : add.all (entryFieldOk "Path") = true)
    (hmkK : ∀ lowers p, simpleKeep lowers (mk p) = lowers.contains (strLower p)) :
    simpleSection mk listKey cur scan false =
      some (.dict (dictSet container listKey (.arr
        (add.filter (simpleKeep (scan.map strLower)) ++
          simpleNews mk (epsOf "Path" add) scan)))) := by
  rw [simpleSection_eval mk listKey cur scan false container add hc hl hok,
    List.filter_append, simpleNews_keep mk hmkK]

theorem driversNews_keep (b : Bool) (ps : List String) (scan : List String)
    (hps : ∀ p ∈ ps, p ∈ scan) :
    ((ps.map (driverNew b)).filter (driverKeep (scan.map strLower))) =
      ps.map (driverNew b) := by
  apply List.filter_eq_self.mpr
  intro e hm
  obtain ⟨p, hpf, rfl⟩ := List.mem_map.mp hm
  rw [driverKeep_driverNew]
  simpa using List.mem_map_of_mem strLower (hps p hpf)

theorem driversSection_merge (cur : Option PValue) (scan : List String)
    (container : Dict) (ex : List PValue)
    (hc : sectionContainer cur = some container)
    (hl : sectionList container "Drivers" false = some ex)
    (hok : ex.all driverOk = true) :
    driversSection cur scan false =
      some (.dict (dictSet container "Drivers" (.arr
        (ex.filter (driverKeep (scan.map strLower)) ++
          ((sortCI scan).filter (fun p =>
            !((ex.filterMap driverPathLower).contains (strLower p)))).map
            (driverNew (headIsDict ex)))))) := by
  rw [driversSection_eval cur scan false container ex hc hl hok, driversAppend_eq,
    List.filter_append, driversNews_keep _ _ scan
      (fun p hp => mem_sortCI.mp (List.mem_of_mem_filter hp))]

theorem kextsSection_merge (cur : Option PValue) (ks : List KextInfo)
    (container : Dict) (add : List PValue)
    (hc : sectionContainer cur = some container)
    (hl : sectionList container "Add" false = some add)
    (hok : add.all (entryFieldOk "BundlePath") = true) :
    kextsSection cur ks false =
      some (.dict (dictSet container "Add" (.arr
        (add.filterMap (kextKeepRefresh ks) ++
          ((ks.filter (fun k =>
            !((epsOf "BundlePath" add).contains (strLower k.bundlePath)))).map
              kextToEntry).filterMap (kextKeepRefresh ks))))) := by
  rw [kextsSection_eval cur ks false container add hc hl hok, List.filterMap_append]

theorem sectionList_clean (container : Dict) (key : String) :
    sectionList container key true = some [] := rfl

theorem simpleSection_clean (mk : String → PValue) (listKey : String)
    (cur : Option PValue) (scan : List String) (container : Dict)
    (hc : sectionContainer cur = some container)
    (hmkK : ∀ lowers p, simpleKeep lowers (mk p) = lowers.contains (strLower p)) :
    simpleSection mk listKey cur scan true =
      some (.dict (dictSet container listKey (.arr ((sortCI scan).map mk)))) := by
  rw [simpleSection_eval mk listKey cur scan true container []
    hc (sectionList_clean container listKey) rfl]
  have h1 : (sortCI scan).filter
      (fun p => !((epsOf "Path" ([] : List PValue)).contains (strLower p))) =
      sortCI scan :=
    List.filter_eq_self.mpr (fun p _ => by simp [epsOf])
  rw [List.nil_append, simpleNews_keep mk hmkK (epsOf "Path" []) scan]
  unfold simpleNews
  rw [h1]

theorem driversSection_clean (cur : Option PValue) (scan : List String) (container : Dict)
    (hc : sectionContainer cur = some container) :
    driversSection cur scan true =
      some (.dict (dictSet container "Drivers" (.arr
        ((sortCI scan).map (fun p => PValue.str p))))) := by
  rw [driversSection_eval cur scan true container []
    hc (sectionList_clean container "Drivers") rfl]
  rw [driversAppend_eq (([] : List PValue).filterMap driverPathLower) [] (sortCI scan)]
  have h1 : (sortCI scan).filter (fun p =>
      !((([] : List PValue).filterMap driverPathLower).contains (strLower p))) =
      sortCI scan :=
    List.filter_eq_self.mpr (fun p _ => by simp)
  rw [h1, List.nil_append,
    driversNews_keep (headIsDict []) (sortCI scan) scan (fun p hp => mem_sortCI.mp hp)]
  exact congrArg (fun l => some (PValue.dict (dictSet container "Drivers" (PValue.arr l))))
    (List.map_congr_left (fun p _ => rfl))

theorem kextsSection_clean (cur : Option PValue) (ks : List KextInfo) (container : Dict)
    (hc : sectionContainer cur = some container) :
    kextsSection cur ks true =
      some (.dict (dictSet container "Add" (.arr
        ((ks.map kextToEntry).filterMap (kextKeepRefresh ks))))) := by
  rw [kextsSection_eval cur ks true container []
    hc (sectionList_clean container "Add") rfl]
  have h1 : ks.filter (fun k =>
      !((epsOf "BundlePath" ([] : List PValue)).contains (strLower k.bundlePath))) = ks :=
    List.filter_eq_self.mpr (fun k _ => by simp [epsOf])
  rw [h1, List.nil_append]

/-! ## Lift equations -/

theorem snapshotAcpi_eq_of {tree : Dict} {fs : FSTree} {clean : Bool} {v : PValue}
    (h : simpleSection acpiEntry "Add" (dictGet tree "ACPI") (walkFS acpiOk fs) clean =
      some v) : snapshotAcpi tree fs clean = some (dictSet tree "ACPI" v) := by
  unfold snapshotAcpi
  rw [h]
  rfl

theorem snapshotKexts_eq_of {tree : Dict} {fs : FSTree} {clean : Bool} {v : PValue}
    (h : kextsSection (dictGet tree "Kernel") (kextWalk fs) clean = some v) :
    snapshotKexts tree fs clean = some (dictSet tree "Kernel" v) := by
  unfold snapshotKexts
  rw [h]
  rfl

theorem snapshotDrivers_eq_of {tree : Dict} {fs : FSTree} {clean : Bool} {v : PValue}
    (h : driversSection (dictGet tree "UEFI") (walkFS efiOk fs) clean = some v) :
    snapshotDrivers tree fs clean = some (dictSet tree "UEFI" v) := by
  unfold snapshotDrivers
  rw [h]
  rfl

theorem snapshotTools_eq_of {tree : Dict} {ft : FSTree} {clean : Bool} {v : PValue}
    (h : simpleSection toolEntry "Tools" (dictGet tree "Misc") (walkFS efiOk ft) clean =
      some v) : snapshotTools tree (some ft) clean = some (dictSet tree "Misc" v) := by
  show (simpleSection toolEntry "Tools" (dictGet tree "Misc") (walkFS efiOk ft) clean).map
      (fun v => dictSet tree "Misc" v) = some (dictSet tree "Misc" v)
  rw [h]
  rfl

theorem refreshKext_find_some {ks : List KextInfo} {bl : String} {ki : KextInfo}
    (d : Dict) (h : ks.find? (fun k0 => strLower k0.bundlePath = bl) = some ki) :
    refreshKext ks bl d =
      dictSet (dictSet d "ExecutablePath" (.str ki.execPath)) "PlistPath"
        (.str ki.plistPath) := by
  unfold refreshKext
  rw [h]

/-! ## Claim C3 -/

/-- C3: pruning under MERGE.  The resulting ACPI (resp. Drivers) list is
exactly the existing entries filtered by "lowercased path occurs among the
freshly discovered paths", in their prior relative order and otherwise
untouched, followed by the new entries; the third and fourth conjuncts
spell out that the retention predicate of a mapping entry compares its
lowercased `Path` field against the discovered paths. -/
theorem C3_merge_pruning (tree : Dict) (fsA fsD : FSTree)
    (acpi : Dict) (add : List PValue) (uefi : Dict) (ex : List PValue)
    (hcA : sectionContainer (dictGet tree "ACPI") = some acpi)
    (hlA : sectionList acpi "Add" false = some add)
    (hokA : add.all (entryFieldOk "Path") = true)
    (hcD : sectionContainer (dictGet tree "UEFI") = some uefi)
    (hlD : sectionList uefi "Drivers" false = some ex)
    (hokD : ex.all driverOk = true) :
    snapshotAcpi tree fsA false = some (dictSet tree "ACPI" (.dict (dictSet acpi "Add"
      (.arr (add.filter (simpleKeep ((walkFS acpiOk fsA).map strLower)) ++
        simpleNews acpiEntry (epsOf "Path" add) (walkFS acpiOk fsA)))))) ∧
    snapshotDrivers tree fsD false = some (dictSet tree "UEFI" (.dict (dictSet uefi
      "Drivers" (.arr (ex.filter (driverKeep ((walkFS efiOk fsD).map strLower)) ++
        ((sortCI (walkFS efiOk fsD)).filter (fun p =>
          !((ex.filterMap driverPathLower).contains (strLower p)))).map
          (driverNew (headIsDict ex)))))))  ∧
    (∀ lowers d, simpleKeep lowers (.dict d) = lowers.contains (fieldLowerD d "Path")) ∧
    (∀ lowers d, driverKeep lowers (.dict d) = lowers.contains (fieldLowerD d "Path")) :=
  ⟨snapshotAcpi_eq_of (simpleSection_merge acpiEntry "Add" (dictGet tree "ACPI")
      (walkFS acpiOk fsA) acpi add hcA hlA hokA simpleKeep_acpiEntry),
   snapshotDrivers_eq_of (driversSection_merge (dictGet tree "UEFI")
      (walkFS efiOk fsD) uefi ex hcD hlD hokD),
   fun _ _ => rfl, fun _ _ => rfl⟩

/-- C3 witness: on the fixture document, `SSDT-OLD.aml` is pruned and the
case-differing `SSDT-EC.AML` entry is retained untouched. -/
theorem C3_witness :
    snapshotAcpi fxTree fxAcpiDir false = some (dictSet fxTree "ACPI" (.dict
      (dictSet fxAcpiC "Add" (.arr ([fxOldE, fxKeepE].filter
        (simpleKeep ((walkFS acpiOk fxAcpiDir).map strLower)) ++
        simpleNews acpiEntry (epsOf "Path" [fxOldE, fxKeepE])
          (walkFS acpiOk fxAcpiDir)))))) ∧
    [fxOldE, fxKeepE].filter (simpleKeep ((walkFS acpiOk fxAcpiDir).map strLower)) =
      [fxKeepE] :=
  ⟨(C3_merge_pruning fxTree fxAcpiDir fxDriversDir fxAcpiC [fxOldE, fxKeepE]
      fxUefiC [.str "OpenRuntime.EFI"] rfl rfl (by decide) rfl rfl (by decide)).1,
   rfl⟩

/-! ## Claim C4 -/

/-- C4: CLEAN mode rebuilds each of the four section lists solely from
the disk scan with default entries; the prior list contents (including
entries for still-present files and entries with user edits) do not occur
in the result, which replaces the document's section list. -/
theorem C4_clean_rebuilds_from_scan (tree : Dict) (fsA fsK fsD fsT : FSTree)
    (acpi kern uefi misc : Dict)
    (hcA : sectionContainer (dictGet tree "ACPI") = some acpi)
    (hcK : sectionContainer (dictGet tree "Kernel") = some kern)
    (hcD : sectionContainer (dictGet tree "UEFI") = some uefi)
    (hcT : sectionContainer (dictGet tree "Misc") = some misc) :
    snapshotAcpi tree fsA true = some (dictSet tree "ACPI" (.dict (dictSet acpi "Add"
      (.arr ((sortCI (walkFS acpiOk fsA)).map acpiEntry))))) ∧
    snapshotKexts tree fsK true = some (dictSet tree "Kernel" (.dict (dictSet kern "Add"
      (.arr (((kextWalk fsK).map kextToEntry).filterMap
        (kextKeepRefresh (kextWalk fsK))))))) ∧
    snapshotDrivers tree fsD true = some (dictSet tree "UEFI" (.dict (dictSet uefi
      "Drivers" (.arr ((sortCI (walkFS efiOk fsD)).map (fun p => PValue.str p)))))) ∧
    snapshotTools tree (some fsT) true = some (dictSet tree "Misc" (.dict (dictSet misc
      "Tools" (.arr ((sortCI (walkFS efiOk fsT)).map toolEntry))))) :=
  ⟨snapshotAcpi_eq_of (simpleSection_clean acpiEntry "Add" (dictGet tree "ACPI")
      (walkFS acpiOk fsA) acpi hcA simpleKeep_acpiEntry),
   snapshotKexts_eq_of (kextsSection_clean (dictGet tree "Kernel") (kextWalk fsK)
      kern hcK),
   snapshotDrivers_eq_of (driversSection_clean (dictGet tree "UEFI")
      (walkFS efiOk fsD) uefi hcD),
   snapshotTools_eq_of (simpleSection_clean toolEntry "Tools" (dictGet tree "Misc")
      (walkFS efiOk fsT) misc hcT simpleKeep_toolEntry)⟩

/-- C4 witness: clean snapshot of the fixture document discards the
user-edited entry `fxKeepE` even though its file is still present,
replacing the list with fresh default entries. -/
theorem C4_witness :
    snapshotAcpi fxTree fxAcpiDir true = some (dictSet fxTree "ACPI" (.dict
      (dictSet fxAcpiC "Add" (.arr ((sortCI (walkFS acpiOk fxAcpiDir)).map
        acpiEntry))))) ∧
    (sortCI (walkFS acpiOk fxAcpiDir)).map acpiEntry =
      [acpiEntry "SSDT-EC.aml", acpiEntry "SSDT-PLUG.aml"] :=
  ⟨(C4_clean_rebuilds_from_scan fxTree fxAcpiDir fxKextsDir fxDriversDir fxToolsDir
      fxAcpiC [] fxUefiC [] rfl rfl rfl rfl).1, rfl⟩

/-! ## Claim C5 -/

/-- C5: Kexts path refresh without clobbering.  Under MERGE every
retained kext entry is replaced by its refreshed version; refreshing
overwrites exactly the `ExecutablePath` and `PlistPath` fields with the
matched scan values (fourth conjunct) and leaves the value of every other
key — `Arch`, `BundlePath`, `Comment`, `Enabled`, `MaxKernel`,
`MinKernel`, user customizations included — unchanged (third
conjunct). -/
theorem C5_kext_refresh_preserves_other_fields (tree : Dict) (fs : FSTree)
    (kern : Dict) (add : List PValue)
    (hc : sectionContainer (dictGet tree "Kernel") = some kern)
    (hl : sectionList kern "Add" false = some add)
    (hok : add.all (entryFieldOk "BundlePath") = true) :
    snapshotKexts tree fs false = some (dictSet tree "Kernel" (.dict (dictSet kern "Add"
      (.arr (add.filterMap (kextKeepRefresh (kextWalk fs)) ++
        (((kextWalk fs).filter (fun k => !((epsOf "BundlePath" add).contains
          (strLower k.bundlePath)))).map kextToEntry).filterMap
            (kextKeepRefresh (kextWalk fs))))))) ∧
    (∀ ks d, (ks.map (fun k => strLower k.bundlePath)).contains
        (fieldLowerD d "BundlePath") = true →
      kextKeepRefresh ks (.dict d) =
        some (.dict (refreshKext ks (fieldLowerD d "BundlePath") d))) ∧
    (∀ ks bl d k1, k1 ≠ "ExecutablePath" → k1 ≠ "PlistPath" →
      dictGet (refreshKext ks bl d) k1 = dictGet d k1) ∧
    (∀ ks bl d ki, ks.find? (fun k0 => strLower k0.bundlePath = bl) = some ki →
      dictGet (refreshKext ks bl d) "ExecutablePath" = some (.str ki.execPath) ∧
      dictGet (refreshKext ks bl d) "PlistPath" = some (.str ki.plistPath)) := by
  refine ⟨snapshotKexts_eq_of (kextsSection_merge (dictGet tree "Kernel")
      (kextWalk fs) kern add hc hl hok), kextKeepRefresh_dict, dictGet_refreshKext_ne,
    ?_⟩
  intro ks bl d ki hf
  constructor
  · rw [refreshKext_find_some d hf, dictGet_dictSet_ne _ _ _ _ (by decide),
      dictGet_dictSet_self]
  · rw [refreshKext_find_some d hf, dictGet_dictSet_self]

/-- C5 witness: the retained entry keeps `MinKernel = "19.0.0"` and its
comment while `ExecutablePath` and `PlistPath` are refreshed from the
scanned bundle. -/
theorem C5_witness :
    snapshotKexts fxTreeK fxKextsDir false = some (dictSet fxTreeK "Kernel" (.dict
      (dictSet fxKernC "Add" (.arr ([fxKextE].filterMap
        (kextKeepRefresh (kextWalk fxKextsDir)) ++
        (((kextWalk fxKextsDir).filter (fun k => !((epsOf "BundlePath"
          [fxKextE]).contains (strLower k.bundlePath)))).map kextToEntry).filterMap
            (kextKeepRefresh (kextWalk fxKextsDir))))))) ∧
    [fxKextE].filterMap (kextKeepRefresh (kextWalk fxKextsDir)) =
      [.dict [("Arch", .str "Any"), ("BundlePath", .str "LILU.kext"),
              ("Comment", .str "patched by me"), ("Enabled", .bool true),
              ("ExecutablePath", .str "Contents/MacOS/Lilu"), ("MaxKernel", .str ""),
              ("MinKernel", .str "19.0.0"),
              ("PlistPath", .str "Contents/Info.plist")]] :=
  ⟨(C5_kext_refresh_preserves_other_fields fxTreeK fxKextsDir fxKernC [fxKextE]
      rfl rfl (by decide)).1, rfl⟩

/-! ## Claim C6 -/

/-- C6: driver format consistency.  Newly appended driver entries are
built by `driverNew fmt` where the flag `fmt` holds exactly when the
first entry of the existing list is a mapping; `driverNew true` is the
full mapping with `Arguments`, `Comment`, `Enabled = true`, `LoadEarly`
and `Path` fields and `driverNew false` is the bare relative-path
string, so with an empty existing list the new entries are bare
strings. -/
theorem C6_driver_format_follows_head (tree : Dict) (fs : FSTree)
    (uefi : Dict) (ex : List PValue)
    (hc : sectionContainer (dictGet tree "UEFI") = some uefi)
    (hl : sectionList uefi "Drivers" false = some ex)
    (hok : ex.all driverOk = true) :
    snapshotDrivers tree fs false = some (dictSet tree "UEFI" (.dict (dictSet uefi
      "Drivers" (.arr (ex.filter (driverKeep ((walkFS efiOk fs).map strLower)) ++
        ((sortCI (walkFS efiOk fs)).filter (fun p =>
          !((ex.filterMap driverPathLower).contains (strLower p)))).map
          (driverNew (headIsDict ex))))))) ∧
    (headIsDict ex = true ↔ ∃ d rest, ex = PValue.dict d :: rest) ∧
    (∀ p, driverNew true p =
      .dict [("Arguments", .str ""), ("Comment", .str (strBasename p)),
             ("Enabled", .bool true), ("LoadEarly", .bool false),
             ("Path", .str p)]) ∧
    (∀ p, driverNew false p = .str p) ∧
    (ex = [] → headIsDict ex = false) := by
  refine ⟨snapshotDrivers_eq_of (driversSection_merge (dictGet tree "UEFI")
      (walkFS efiOk fs) uefi ex hc hl hok), ?_, fun p => rfl, fun p => rfl,
    fun h => by rw [h]; rfl⟩
  constructor
  · intro h
    cases ex with
    | nil => exact absurd h (by simp [headIsDict])
    | cons x rest =>
      cases x with
      | dict d => exact ⟨d, rest, rfl⟩
      | bool b => exact absurd h (by simp [headIsDict])
      | int n => exact absurd h (by simp [headIsDict])
      | str s => exact absurd h (by simp [headIsDict])
      | bytes bs => exact absurd h (by simp [headIsDict])
      | arr a => exact absurd h (by simp [headIsDict])
  · rintro ⟨d, rest, rfl⟩
    rfl

/-- C6 witness: against a dict-format existing list, the newly discovered
driver is appended as a mapping with `Enabled = true`, not as a bare
string. -/
theorem C6_witness :
    snapshotDrivers fxTreeD fxDriversDir2 false = some (dictSet fxTreeD "UEFI" (.dict
      (dictSet fxUefiC2 "Drivers" (.arr ([fxDrvE].filter
        (driverKeep ((walkFS efiOk fxDriversDir2).map strLower)) ++
        ((sortCI (walkFS efiOk fxDriversDir2)).filter (fun p =>
          !(([fxDrvE].filterMap driverPathLower).contains (strLower p)))).map
          (driverNew (headIsDict [fxDrvE]))))))) ∧
    ((sortCI (walkFS efiOk fxDriversDir2)).filter (fun p =>
      !(([fxDrvE].filterMap driverPathLower).contains (strLower p)))).map
      (driverNew (headIsDict [fxDrvE])) =
      [.dict [("Arguments", .str ""), ("Comment", .str "NewDriver.efi"),
              ("Enabled", .bool true), ("LoadEarly", .bool false),
              ("Path", .str "NewDriver.efi")]] :=
  ⟨(C6_driver_format_follows_head fxTreeD fxDriversDir2 fxUefiC2 [fxDrvE]
      rfl rfl (by decide)).1, rfl⟩

/-! ## Claim C2 -/

/-- C2 counterexample: the claim that newly appended entries are ordered
lexicographically case-insensitively by relative path fails for the Kexts
section.  With an empty Kernel list and a Kexts directory containing
`A.kext` (with plugin `Z.kext` under `Contents/PlugIns`) and `B.kext`,
the appended bundle paths come out in scan order `A.kext`, `B.kext`,
`A.kext/Contents/PlugIns/Z.kext`, which is not sorted in the
case-insensitive order (the plugin path sorts before `B.kext`). -/
theorem C2_counterexample :
    (kextWalk fxPluginKexts).map KextInfo.bundlePath =
      ["A.kext", "B.kext", "A.kext/Contents/PlugIns/Z.kext"] ∧
    snapshotKexts [] fxPluginKexts false = some [("Kernel", .dict [("Add", .arr
      ((kextWalk fxPluginKexts).map kextToEntry))])] ∧
    ¬ List.Pairwise ciLE ((kextWalk fxPluginKexts).map KextInfo.bundlePath) := by
  refine ⟨rfl, rfl, ?_⟩
  intro hp
  rw [show (kextWalk fxPluginKexts).map KextInfo.bundlePath =
    ["A.kext", "B.kext", "A.kext/Contents/PlugIns/Z.kext"] from rfl] at hp
  rcases List.pairwise_cons.mp hp with ⟨-, hp2⟩
  rcases List.pairwise_cons.mp hp2 with ⟨hb, -⟩
  exact absurd (hb _ (List.mem_singleton.mpr rfl)) (by decide)

/-- C2 (amended): addition step.  New entries carry the section defaults
with `Enabled = true` and `Comment` the base filename (the directory name
for kexts), are appended after all retained entries, and exactly the
discovered paths whose lowercase form is absent from the existing path
fields are appended.  The ACPI (and likewise Drivers/Tools) additions are
sorted case-insensitively by relative path; the Kexts additions are in
scan order — per-directory case-insensitive candidate order with a
directory's kexts before kexts nested deeper — which is not globally
lexicographic. -/
theorem C2_amended_addition_order (tree : Dict) (fsA fsK : FSTree)
    (acpi : Dict) (add : List PValue) (kern : Dict) (addK : List PValue)
    (hcA : sectionContainer (dictGet tree "ACPI") = some acpi)
    (hlA : sectionList acpi "Add" false = some add)
    (hokA : add.all (entryFieldOk "Path") = true)
    (hcK : sectionContainer (dictGet tree "Kernel") = some kern)
    (hlK : sectionList kern "Add" false = some addK)
    (hokK : addK.all (entryFieldOk "BundlePath") = true) :
    snapshotAcpi tree fsA false = some (dictSet tree "ACPI" (.dict (dictSet acpi "Add"
      (.arr (add.filter (simpleKeep ((walkFS acpiOk fsA).map strLower)) ++
        simpleNews acpiEntry (epsOf "Path" add) (walkFS acpiOk fsA)))))) ∧
    List.Pairwise ciLE ((sortCI (walkFS acpiOk fsA)).filter (fun p =>
      !((epsOf "Path" add).contains (strLower p)))) ∧
    (∀ p, acpiEntry p = .dict [("Comment", .str (strBasename p)),
      ("Enabled", .bool true), ("Path", .str p)]) ∧
    snapshotKexts tree fsK false = some (dictSet tree "Kernel" (.dict (dictSet kern
      "Add" (.arr (addK.filterMap (kextKeepRefresh (kextWalk fsK)) ++
        (((kextWalk fsK).filter (fun k => !((epsOf "BundlePath" addK).contains
          (strLower k.bundlePath)))).map kextToEntry).filterMap
            (kextKeepRefresh (kextWalk fsK))))))) ∧
    (∀ k, kextToEntry k = .dict [("Arch", .str "Any"),
      ("BundlePath", .str k.bundlePath), ("Comment", .str k.dirName),
      ("Enabled", .bool true), ("ExecutablePath", .str k.execPath),
      ("MaxKernel", .str ""), ("MinKernel", .str ""),
      ("PlistPath", .str k.plistPath)]) :=
  ⟨snapshotAcpi_eq_of (simpleSection_merge acpiEntry "Add" (dictGet tree "ACPI")
      (walkFS acpiOk fsA) acpi add hcA hlA hokA simpleKeep_acpiEntry),
   List.Pairwise.sublist (List.filter_sublist _) (sortCI_pairwise _),
   fun _ => rfl,
   snapshotKexts_eq_of (kextsSection_merge (dictGet tree "Kernel") (kextWalk fsK)
      kern addK hcK hlK hokK),
   fun _ => rfl⟩

/-- C2 witness: the amended addition statement applied to the fixture
document and directories. -/
theorem C2_witness :
    snapshotAcpi fxTree fxAcpiDir false = some (dictSet fxTree "ACPI" (.dict
      (dictSet fxAcpiC "Add" (.arr ([fxOldE, fxKeepE].filter
        (simpleKeep ((walkFS acpiOk fxAcpiDir).map strLower)) ++
        simpleNews acpiEntry (epsOf "Path" [fxOldE, fxKeepE])
          (walkFS acpiOk fxAcpiDir)))))) ∧
    List.Pairwise ciLE ((sortCI (walkFS acpiOk fxAcpiDir)).filter (fun p =>
      !((epsOf "Path" [fxOldE, fxKeepE]).contains (strLower p)))) := by
  have h := C2_amended_addition_order fxTree fxAcpiDir fxKextsDir
    fxAcpiC [fxOldE, fxKeepE] [] [] rfl rfl (by decide) rfl rfl (by decide)
  exact ⟨h.1, h.2.1⟩

/-! ## Claim C7 -/

theorem infoHere_none_of_noPlist (t : FSTree) (h : noPlist t = true) :
    infoHere t = none := by
  induction t with
  | nil => rfl
  | fileC n sz pl rest ih =>
    rw [noPlist, Bool.and_eq_true] at h
    unfold infoHere
    rw [if_neg (by simpa using h.1)]
    exact ih h.2
  | dirC n ch rest ih1 ih2 =>
    rw [noPlist, Bool.and_eq_true] at h
    exact ih2 h.2

theorem findInfoSub_none_of_noPlist (t : FSTree) (h : noPlist t = true) :
    findInfoSub t = none := by
  induction t with
  | nil => rfl
  | fileC n sz pl rest ih =>
    rw [noPlist, Bool.and_eq_true] at h
    exact ih h.2
  | dirC n ch rest ih1 ih2 =>
    rw [noPlist, Bool.and_eq_true] at h
    unfold findInfoSub
    rw [infoHere_none_of_noPlist ch h.1, ih1 h.1, ih2 h.2]

theorem findInfo_none_of_noPlist (t : FSTree) (h : noPlist t = true) :
    findInfo t = none := by
  unfold findInfo
  rw [infoHere_none_of_noPlist t h]
  exact findInfoSub_none_of_noPlist t h

theorem noPlist_of_mem_dirsOf (t : FSTree) (h : noPlist t = true)
    (n : String) (ch : FSTree) (hm : (n, ch) ∈ dirsOf t) : noPlist ch = true := by
  induction t with
  | nil => simp [dirsOf] at hm
  | fileC n2 sz pl rest ih =>
    rw [noPlist, Bool.and_eq_true] at h
    exact ih h.2 hm
  | dirC n2 ch2 rest ih1 ih2 =>
    rw [noPlist, Bool.and_eq_true] at h
    rcases List.mem_cons.mp hm with heq | hm2
    · obtain ⟨-, rfl⟩ := Prod.mk.injEq .. ▸ heq
      exact h.1
    · exact ih2 h.2 hm2

theorem processKext_none_of_noPlist (n : String) (ch : FSTree)
    (h : noPlist ch = true) : processKext n ch = none := by
  unfold processKext
  rw [findInfo_none_of_noPlist ch h]

theorem kextLevel_nil_of_noPlist (t : FSTree) (h : noPlist t = true) :
    kextLevel t = [] := by
  rw [kextLevel, List.filterMap_eq_nil_iff]
  intro c hc
  have hm : c ∈ dirsOf t := (List.mem_insertionSort ciLEName).mp hc
  have hch : noPlist c.2 = true := noPlist_of_mem_dirsOf t h c.1 c.2 (by simpa using hm)
  cases hcand : kextCand c.1
  · simp [hcand]
  · simp [hcand, processKext_none_of_noPlist c.1 c.2 hch]

theorem kextSub_nil_of_noPlist (t : FSTree) (h : noPlist t = true) :
    kextSub t = [] := by
  induction t with
  | nil => rfl
  | fileC n sz pl rest ih =>
    rw [noPlist, Bool.and_eq_true] at h
    exact ih h.2
  | dirC n ch rest ih1 ih2 =>
    rw [noPlist, Bool.and_eq_true] at h
    unfold kextSub
    rw [kextLevel_nil_of_noPlist ch h.1, ih1 h.1, ih2 h.2]
    rfl

theorem processKext_none_of_no_id (n : String) (ch : FSTree) (pl : String)
    (info : Dict) (hfi : findInfo ch = some (pl, some info))
    (h : dictGet info "CFBundleIdentifier" = none) :
    processKext n ch = none := by
  unfold processKext
  rw [hfi]
  show (if (dictGet info "CFBundleIdentifier").isNone = true then none else _) = none
  rw [if_pos (by rw [h]; rfl)]

theorem filterMap_insertionSort_cons_none {α β : Type} (r : α → α → Prop)
    [DecidableRel r] (f : α → Option β) (x : α) (l : List α) (hx : f x = none) :
    (List.filterMap f ((x :: l).insertionSort r)).Perm
      (List.filterMap f (l.insertionSort r)) := by
  refine ((List.perm_insertionSort r (x :: l)).filterMap f).trans ?_
  rw [List.filterMap_cons_none hx]
  exact ((List.perm_insertionSort r l).filterMap f).symm

theorem kextWalk_skip (nm : String) (ch : FSTree) (rest : FSTree)
    (hf : (if kextCand nm then processKext nm ch else none) = none)
    (hlv : kextLevel ch = []) (hsb : kextSub ch = []) :
    (kextWalk (.dirC nm ch rest)).Perm (kextWalk rest) := by
  have h1 : kextSub (.dirC nm ch rest) = kextSub rest := by
    show ((kextLevel ch ++ kextSub ch).map _) ++ kextSub rest = kextSub rest
    rw [hlv, hsb]
    rfl
  have h2 : (kextLevel (.dirC nm ch rest)).Perm (kextLevel rest) := by
    show (List.filterMap (fun c => if kextCand c.1 then processKext c.1 c.2 else none)
      (((nm, ch) :: dirsOf rest).insertionSort ciLEName)).Perm _
    exact filterMap_insertionSort_cons_none ciLEName _ (nm, ch) (dirsOf rest) hf
  show (kextLevel (.dirC nm ch rest) ++ kextSub (.dirC nm ch rest)).Perm
    (kextLevel rest ++ kextSub rest)
  rw [h1]
  exact h2.append (List.Perm.refl _)

/-- C7: malformed-kext rejection.  A `.kext` directory with no
`Info.plist` anywhere beneath it (first conjunct) or whose `Info.plist`
lacks `CFBundleIdentifier` (second conjunct) contributes nothing to the
discovery: the scan of the directory listing with the malformed kext in
front is a permutation of the scan without it, so every other valid kext
is still discovered and no error is raised.  Concretely (third and fourth
conjuncts), with `Bad.kext` (no `Info.plist`) and `Bad2.kext` (no
`CFBundleIdentifier`) next to a valid `Good.kext`, only `Good.kext` is
discovered and the snapshot succeeds with exactly that entry. -/
theorem C7_malformed_kext_skipped :
    (∀ nm ch rest, noPlist ch = true →
      (kextWalk (.dirC nm ch rest)).Perm (kextWalk rest)) ∧
    (∀ nm info rest, dictGet info "CFBundleIdentifier" = none →
      (kextWalk (.dirC nm (.dirC "Contents" (.fileC "Info.plist" 1 (some info) .nil)
        .nil) rest)).Perm (kextWalk rest)) ∧
    (kextWalk fxBadKexts).map KextInfo.bundlePath = ["Good.kext"] ∧
    snapshotKexts [] fxBadKexts false = some [("Kernel", .dict [("Add", .arr
      ((kextWalk fxBadKexts).map kextToEntry))])] := by
  refine ⟨?_, ?_, rfl, rfl⟩
  · intro nm ch rest h
    refine kextWalk_skip nm ch rest ?_ (kextLevel_nil_of_noPlist ch h)
      (kextSub_nil_of_noPlist ch h)
    cases hcand : kextCand nm
    · simp
    · simp [processKext_none_of_noPlist nm ch h]
  · intro nm info rest h
    refine kextWalk_skip nm _ rest ?_ rfl rfl
    cases hcand : kextCand nm
    · simp
    · simp [processKext_none_of_no_id nm (.dirC "Contents"
        (.fileC "Info.plist" 1 (some info) .nil) .nil) "Contents/Info.plist" info rfl h]

/-- C7 witness: a kext directory with empty contents in front of a valid
Kexts listing leaves the discovery a permutation of the listing's own. -/
theorem C7_witness :
    (kextWalk (.dirC "Bad.kext" .nil fxKextsDir)).Perm (kextWalk fxKextsDir) :=
  C7_malformed_kext_skipped.1 "Bad.kext" .nil fxKextsDir rfl

/-! ## Claim C10 -/

/-- C10: on a successful section snapshot (MERGE or CLEAN), every element
of the resulting ACPI `Add`, Kernel `Add`, and (when the Tools directory
exists) Misc `Tools` lists is a mapping — non-mapping elements are never
counted among the existing paths and never pass the pruning filter, so
they are silently removed even if a matching file exists on disk (the
C10 witness exhibits this).  Only the UEFI Drivers section retains
non-mapping entries: a bare-string driver whose lowercase form is among
the discovered paths stays in the list (last conjunct). -/
theorem C10_non_mapping_entries_removed :
    (∀ tree fs clean t, snapshotAcpi tree fs clean = some t →
      ∃ a l, dictGet t "ACPI" = some (.dict a) ∧ dictGet a "Add" = some (.arr l) ∧
        ∀ e ∈ l, ∃ d, e = .dict d) ∧
    (∀ tree fs clean t, snapshotKexts tree fs clean = some t →
      ∃ a l, dictGet t "Kernel" = some (.dict a) ∧ dictGet a "Add" = some (.arr l) ∧
        ∀ e ∈ l, ∃ d, e = .dict d) ∧
    (∀ tree fs clean t, snapshotTools tree (some fs) clean = some t →
      ∃ a l, dictGet t "Misc" = some (.dict a) ∧ dictGet a "Tools" = some (.arr l) ∧
        ∀ e ∈ l, ∃ d, e = .dict d) ∧
    (∀ tree fs uefi ex s t, sectionContainer (dictGet tree "UEFI") = some uefi →
      sectionList uefi "Drivers" false = some ex → ex.all driverOk = true →
      PValue.str s ∈ ex → strLower s ∈ (walkFS efiOk fs).map strLower →
      snapshotDrivers tree fs false = some t →
      ∃ u2 l, dictGet t "UEFI" = some (.dict u2) ∧
        dictGet u2 "Drivers" = some (.arr l) ∧ PValue.str s ∈ l) := by
  refine ⟨?_, ?_, ?_, ?_⟩
  · intro tree fs clean t h
    obtain ⟨v, hs, rfl⟩ := snapshotAcpi_inv h
    obtain ⟨container, add, eps, hc, hl, he, rfl⟩ := simpleSection_inv hs
    refine ⟨_, _, dictGet_dictSet_self _ _ _, dictGet_dictSet_self _ _ _, ?_⟩
    intro e hm
    have hkeep := (List.mem_filter.mp hm).2
    cases e with
    | dict d => exact ⟨d, rfl⟩
    | bool b => exact Bool.noConfusion hkeep
    | int n => exact Bool.noConfusion hkeep
    | str s => exact Bool.noConfusion hkeep
    | bytes bs => exact Bool.noConfusion hkeep
    | arr a => exact Bool.noConfusion hkeep
  · intro tree fs clean t h
    obtain ⟨v, hs, rfl⟩ := snapshotKexts_inv h
    obtain ⟨container, add, ebs, hc, hl, he, rfl⟩ := kextsSection_inv hs
    refine ⟨_, _, dictGet_dictSet_self _ _ _, dictGet_dictSet_self _ _ _, ?_⟩
    intro e hm
    obtain ⟨e0, _, heq⟩ := List.mem_filterMap.mp hm
    obtain ⟨d0, -, -, he'⟩ := kextKeepRefresh_inv heq
    exact ⟨_, he'⟩
  · intro tree fs clean t h
    rcases snapshotTools_inv h with ⟨hnone, -⟩ | ⟨ft, v, hsome, hs, rfl⟩
    · exact Option.noConfusion hnone
    · obtain rfl : ft = fs := (Option.some.inj hsome).symm
      obtain ⟨container, add, eps, hc, hl, he, rfl⟩ := simpleSection_inv hs
      refine ⟨_, _, dictGet_dictSet_self _ _ _, dictGet_dictSet_self _ _ _, ?_⟩
      intro e hm
      have hkeep := (List.mem_filter.mp hm).2
      cases e with
      | dict d => exact ⟨d, rfl⟩
      | bool b => exact Bool.noConfusion hkeep
      | int n => exact Bool.noConfusion hkeep
      | str s => exact Bool.noConfusion hkeep
      | bytes bs => exact Bool.noConfusion hkeep
      | arr a => exact Bool.noConfusion hkeep
  · intro tree fs uefi ex s t hc hl hok hsx hmem h
    have heq := snapshotDrivers_eq_of (driversSection_merge (dictGet tree "UEFI")
      (walkFS efiOk fs) uefi ex hc hl hok)
    rw [heq] at h
    obtain rfl := (Option.some.inj h).symm
    refine ⟨_, _, dictGet_dictSet_self _ _ _, dictGet_dictSet_self _ _ _, ?_⟩
    refine List.mem_append_left _ (List.mem_filter.mpr ⟨hsx, ?_⟩)
    show ((walkFS efiOk fs).map strLower).contains (strLower s) = true
    simpa using hmem

/-- C10 witness: a bare-string ACPI element whose file is present on disk
is nevertheless removed — the successful snapshot's resulting list
consists of mappings only. -/
theorem C10_witness :
    snapshotAcpi fxTreeMix fxAcpiDir false = some fxOutMix ∧
    (∃ a l, dictGet fxOutMix "ACPI" = some (.dict a) ∧
      dictGet a "Add" = some (.arr l) ∧ ∀ e ∈ l, ∃ d, e = .dict d) :=
  ⟨rfl, C10_non_mapping_entries_removed.1 fxTreeMix fxAcpiDir false fxOutMix rfl⟩

/-! ## Round-trip of the document serializer (C9) -/

/-- The zigzag code of a signed integer is decoded exactly. -/
theorem intOfNat_natOfInt (n : Int) : intOfNat (natOfInt n) = n := by
  unfold natOfInt intOfNat
  by_cases h : 0 ≤ n
  · rw [if_pos h, if_pos (by omega), show 2 * n.toNat / 2 = n.toNat from by omega]
    show (n.toNat : Int) = n
    omega
  · rw [if_neg h, if_neg (by omega),
      show (2 * (-n).toNat - 1 + 1) / 2 = (-n).toNat from by omega]
    show -(((-n).toNat : Int)) = n
    omega

/-- Decoding a length-prefixed string encoding recovers the string and
leaves the remaining input intact. -/
theorem decStr_enc (k : String) (rest : List Nat) :
    decStr ((k.length :: k.data.map Char.toNat) ++ rest) = some (k, rest) := by
  obtain ⟨cs⟩ := k
  show decStr (cs.length :: (cs.map Char.toNat ++ rest)) = some (⟨cs⟩, rest)
  rw [show cs.length = (cs.map Char.toNat).length from by simp]
  simp only [decStr]
  rw [if_pos (by simp), List.take_left, List.drop_left]
  have hmap : (cs.map Char.toNat).map Char.ofNat = cs := by
    rw [List.map_map]
    simp [Function.comp_def, Char.ofNat_toNat]
  rw [hmap]

/-- Every encoded document occupies at least one word. -/
theorem encP_len_pos (v : Doc) : 1 ≤ (encP v).length := by
  cases v <;> simp only [encP, List.length_cons, List.length_nil] <;> omega

/-- Every document needs at least one unit of decoding budget. -/
theorem sizeP_pos (v : Doc) : 1 ≤ sizeP v := by
  cases v <;> first | exact Nat.le_refl 1 | exact Nat.le_add_left 1 _

mutual
theorem sizeP_le_enc : ∀ v : Doc, sizeP v ≤ (encP v).length
  | .bool _ => Nat.le_succ 1
  | .int _ => Nat.le_succ 1
  | .str s => by
      show 1 ≤ (s.data.map Char.toNat).length + 1 + 1
      omega
  | .bytes bs => by
      show 1 ≤ bs.length + 1 + 1
      omega
  | .arr items => by
      have h := sizeL_le_enc items
      show sizeL items + 1 ≤ (encL items).length + 1 + 1
      omega
  | .dict es => by
      have h := sizeD_le_enc es
      show sizeD es + 1 ≤ (encD es).length + 1 + 1
      omega
theorem sizeL_le_enc : ∀ l : DocList, sizeL l ≤ (encL l).length + 1
  | .nil => Nat.zero_le 1
  | .cons v tail => by
      have h1 := sizeP_le_enc v
      have h2 := sizeL_le_enc tail
      have h3 := encP_len_pos v
      show max (sizeP v) (sizeL tail) + 1 ≤ (encP v ++ encL tail).length + 1
      rw [List.length_append]
      omega
theorem sizeD_le_enc : ∀ d : DocDict, sizeD d ≤ (encD d).length + 1
  | .nil => Nat.zero_le 1
  | .cons k v tail => by
      have h1 := sizeP_le_enc v
      have h2 := sizeD_le_enc tail
      have h3 := encP_len_pos v
      show max (sizeP v) (sizeD tail) + 1 ≤
        (((k.length :: k.data.map Char.toNat) ++ encP v) ++ encD tail).length + 1
      rw [List.length_append, List.length_append, List.length_cons]
      omega
end

mutual
theorem decP_enc : ∀ (v : Doc) (fuel : Nat) (rest : List Nat), sizeP v ≤ fuel →
    decP fuel (encP v ++ rest) = some (v, rest)
  | v, 0, _, h => absurd h (by have := sizeP_pos v; omega)
  | .bool b, fuel + 1, rest, _ => by cases b <;> rfl
  | .int n, fuel + 1, rest, _ => by
      show some (Doc.int (intOfNat (natOfInt n)), rest) = some (.int n, rest)
      rw [intOfNat_natOfInt]
  | .str s, fuel + 1, rest, _ => by
      show (decStr ((s.length :: s.data.map Char.toNat) ++ rest)).map
          (fun sr => (Doc.str sr.1, sr.2)) = some (.str s, rest)
      rw [decStr_enc]
      rfl
  | .bytes bs, fuel + 1, rest, _ => by
      show (if bs.length ≤ (bs ++ rest).length then
          some (Doc.bytes ((bs ++ rest).take bs.length), (bs ++ rest).drop bs.length)
        else none) = some (.bytes bs, rest)
      rw [if_pos (by simp), List.take_left, List.drop_left]
  | .arr items, fuel + 1, rest, h => by
      have h' : sizeL items ≤ fuel := by
        have hh : sizeL items + 1 ≤ fuel + 1 := h
        omega
      show (decL fuel items.length (encL items ++ rest)).map
          (fun lr => (Doc.arr lr.1, lr.2)) = some (.arr items, rest)
      rw [decL_enc items fuel rest h']
      rfl
  | .dict es, fuel + 1, rest, h => by
      have h' : sizeD es ≤ fuel := by
        have hh : sizeD es + 1 ≤ fuel + 1 := h
        omega
      show (decD fuel es.length (encD es ++ rest)).map
          (fun dr => (Doc.dict dr.1, dr.2)) = some (.dict es, rest)
      rw [decD_enc es fuel rest h']
      rfl
theorem decL_enc : ∀ (l : DocList) (fuel : Nat) (rest : List Nat), sizeL l ≤ fuel →
    decL fuel l.length (encL l ++ rest) = some (l, rest)
  | .nil, fuel, rest, _ => by cases fuel <;> rfl
  | .cons v tail, 0, _, h =>
      absurd h (by show ¬ (max (sizeP v) (sizeL tail) + 1 ≤ 0); omega)
  | .cons v tail, fuel + 1, rest, h => by
      have h1 : sizeP v ≤ fuel := by
        have hh : max (sizeP v) (sizeL tail) + 1 ≤ fuel + 1 := h
        omega
      have h2 : sizeL tail ≤ fuel := by
        have hh : max (sizeP v) (sizeL tail) + 1 ≤ fuel + 1 := h
        omega
      show (decP fuel ((encP v ++ encL tail) ++ rest)).bind
          (fun vr => (decL fuel tail.length vr.2).bind
            (fun lr => some (DocList.cons vr.1 lr.1, lr.2))) = some (.cons v tail, rest)
      rw [List.append_assoc, decP_enc v fuel (encL tail ++ rest) h1]
      show (decL fuel tail.length (encL tail ++ rest)).bind
          (fun lr => some (DocList.cons v lr.1, lr.2)) = some (.cons v tail, rest)
      rw [decL_enc tail fuel rest h2]
      rfl
theorem decD_enc : ∀ (d : DocDict) (fuel : Nat) (rest : List Nat), sizeD d ≤ fuel →
    decD fuel d.length (encD d ++ rest) = some (d, rest)
  | .nil, fuel, rest, _ => by cases fuel <;> rfl
  | .cons _ v tail, 0, _, h =>
      absurd h (by show ¬ (max (sizeP v) (sizeD tail) + 1 ≤ 0); omega)
  | .cons k v tail, fuel + 1, rest, h => by
      have h1 : sizeP v ≤ fuel := by
        have hh : max (sizeP v) (sizeD tail) + 1 ≤ fuel + 1 := h
        omega
      have h2 : sizeD tail ≤ fuel := by
        have hh : max (sizeP v) (sizeD tail) + 1 ≤ fuel + 1 := h
        omega
      show (decStr ((((k.length :: k.data.map Char.toNat) ++ encP v) ++ encD tail)
            ++ rest)).bind
          (fun kr => (decP fuel kr.2).bind
            (fun vr => (decD fuel tail.length vr.2).bind
              (fun dr => some (DocDict.cons kr.1 vr.1 dr.1, dr.2)))) =
        some (.cons k v tail, rest)
      rw [List.append_assoc, List.append_assoc, decStr_enc]
      show (decP fuel (encP v ++ (encD tail ++ rest))).bind
          (fun vr => (decD fuel tail.length vr.2).bind
            (fun dr => some (DocDict.cons k vr.1 dr.1, dr.2))) =
        some (.cons k v tail, rest)
      rw [decP_enc v fuel (encD tail ++ rest) h1]
      show (decD fuel tail.length (encD tail ++ rest)).bind
          (fun dr => some (DocDict.cons k v dr.1, dr.2)) = some (.cons k v tail, rest)
      rw [decD_enc tail fuel rest h2]
      rfl
end

/-- C9: document round-trip — for every document of the modelled
serializer, saving and re-loading yields a structurally equal document:
mapping key order, sequence order, and every supported leaf value
(boolean, integer, string, byte sequence) are preserved, with no implicit
alphabetical re-sorting of mapping keys. -/
theorem C9_document_round_trip : ∀ d : Doc, load (save d) = some d := by
  intro d
  unfold load save
  have h := decP_enc d ((encP d).length + 1) [] (by have := sizeP_le_enc d; omega)
  rw [List.append_nil] at h
  rw [h]

end OCSnap
